import Mathlib

/-
  Verification of the plan/execute/replan engine of the Agentic-Ai repository.

  The Python sources (src/agentic_ai/{planner,executor,agent,tools}.py) are shallowly
  embedded below.  Python dictionaries are modelled as association lists with unique
  keys (insertion preserves the position of an existing key, as CPython does);
  Python values are modelled by the inductive type `Value`; the side-effecting tool
  registry is modelled by a state-passing function parameter (spec 4.1/6: every tool
  capability is total and converts internal faults into failure results, which every
  tool in tools.py indeed does via try/except, and the registry converts an unknown
  tool name into a failure result).
-/

namespace AgenticAI

/-- Model of a Python value (string | int | bool | None | list | dict). -/
inductive Value where
  | none : Value
  | bool : Bool → Value
  | int : Int → Value
  | str : String → Value
  | vlist : List Value → Value
  | dict : List (String × Value) → Value

/-- Python `d.get(k)` on a dict with unique keys, `Option.none` when absent. -/
def pyGet {κ α : Type _} [BEq κ] (d : List (κ × α)) (k : κ) : Option α :=
  (d.find? (fun p => p.1 == k)).map (·.2)

/-- Python `k in d` (dict key membership). -/
def pyHasKey {κ α : Type _} [BEq κ] (d : List (κ × α)) (k : κ) : Bool :=
  d.any (fun p => p.1 == k)

/-- Python `d[k] = v`: replace the value in place if the key exists (CPython keeps
the original insertion position), otherwise append the new binding. -/
def pySet {κ α : Type _} [BEq κ] (d : List (κ × α)) (k : κ) (v : α) : List (κ × α) :=
  if pyHasKey d k then d.map (fun p => if p.1 == k then (k, v) else p) else d ++ [(k, v)]

/-- Python `d.update(other)`: set every binding of `other` into `d`, in order. -/
def pyUpdate {κ α : Type _} [BEq κ] (d other : List (κ × α)) : List (κ × α) :=
  other.foldl (fun acc p => pySet acc p.1 p.2) d

/-- Python `d.get(k)` with `None` as the default. -/
def pyGetD (d : List (String × Value)) (k : String) : Value :=
  (pyGet d k).getD Value.none

/-- Python truthiness of a value. -/
def truthy : Value → Bool
  | Value.none => false
  | Value.bool b => b
  | Value.int n => n != 0
  | Value.str s => s != ""
  | Value.vlist xs => !xs.isEmpty
  | Value.dict d => !d.isEmpty

/-- planner.py, class PlanStep: one step of a plan.  `status` is one of
"pending", "in_progress", "completed", "failed"; a fresh step has status
"pending" and no result. -/
structure PlanStep where
  step_id : Nat
  description : String
  tool : String
  parameters : List (String × Value)
  dependencies : List Nat
  status : String
  result : Option (List (String × Value))

/-- Constructor matching PlanStep.__init__: status "pending", result None. -/
def PlanStep.mk0 (step_id : Nat) (description tool : String)
    (parameters : List (String × Value)) (dependencies : List Nat) : PlanStep :=
  ⟨step_id, description, tool, parameters, dependencies, "pending", Option.none⟩

/-- Whitespace characters for Python str.strip() and the regex class \s. -/
def isPySpace (c : Char) : Bool :=
  c == ' ' || c == '\t' || c == '\n' || c == '\r' || c == '\x0b' || c == '\x0c'

/-- Python str.strip(). -/
def pyStrip (s : String) : String :=
  String.mk (((s.data.dropWhile isPySpace).reverse.dropWhile isPySpace).reverse)

/-- Python `pat in s` (substring containment). -/
def containsSub (pat s : List Char) : Bool :=
  s.tails.any (fun t => pat.isPrefixOf t)

/-- Executor._get_context_value traversal loop: walk the dot-separated parts;
a missing key yields None (`dict.get` default) and a non-dict intermediate
value aborts with None. -/
def get_context_value_go : List String → Value → Value
  | [], v => v
  | p :: ps, Value.dict d => get_context_value_go ps (pyGetD d p)
  | _ :: _, _ => Value.none

/-- Python str.split with a one-character separator: split at every
occurrence, keeping empty segments (`"a..b".split "." = ["a", "", "b"]`). -/
def splitOnChar (c : Char) : List Char → List (List Char)
  | [] => [[]]
  | d :: ds =>
    if d == c then [] :: splitOnChar c ds
    else
      match splitOnChar c ds with
      | [] => [[d]]
      | seg :: rest => (d :: seg) :: rest

/-- Executor._get_context_value: `path.split "."` then traverse the context. -/
def get_context_value (path : String) (context : List (String × Value)) : Value :=
  get_context_value_go ((splitOnChar '.' path.data).map String.mk) (Value.dict context)

mutual

/-- Python str() of a value.  Scalars are rendered exactly as CPython does;
for containers the rendering is structural (element reprs abbreviated to str);
no verified property below depends on the rendering of containers. -/
def py_str : Value → String
  | Value.none => "None"
  | Value.bool b => if b then "True" else "False"
  | Value.int n => toString n
  | Value.str s => s
  | Value.vlist xs => "[" ++ String.intercalate ", " (py_str_list xs) ++ "]"
  | Value.dict d => "\x7b" ++ String.intercalate ", " (py_str_dict d) ++ "\x7d"

/-- Renderings of the elements of a list value. -/
def py_str_list : List Value → List String
  | [] => []
  | v :: rest => py_str v :: py_str_list rest

/-- Renderings of the entries of a dict value. -/
def py_str_dict : List (String × Value) → List String
  | [] => []
  | (k, v) :: rest => (k ++ ": " ++ py_str v) :: py_str_dict rest

end

/-- One attempted match of the template regex of Executor._resolve_template at
the current position, already past the opening "\x7b\x7b": a nonempty greedy
run of non-"\x7d" characters must be followed by "\x7d\x7d"; on success return
the captured run and the remainder after the match. -/
def grabVar (rest : List Char) : Option (String × List Char) :=
  match rest.takeWhile (fun d => d != '\x7d'),
      rest.drop (rest.takeWhile (fun d => d != '\x7d')).length with
  | r0 :: rrest, '\x7d' :: '\x7d' :: tail => Option.some (String.mk (r0 :: rrest), tail)
  | _, _ => Option.none

/-- The captured groups of re.findall with the template pattern of
Executor._resolve_template: scan left to right; on a match, capture the group
and continue after the match; otherwise advance one character. -/
def find_template_vars : List Char → List String
  | [] => []
  | [_] => []
  | c1 :: c2 :: cs =>
    if c1 = '\x7b' ∧ c2 = '\x7b' then
      match h : grabVar cs with
      | Option.some (v, tail) => v :: find_template_vars tail
      | Option.none => find_template_vars (c2 :: cs)
    else find_template_vars (c2 :: cs)
termination_by l => l.length
decreasing_by
  · have hlen : tail.length + 3 ≤ cs.length := by
      unfold grabVar at h
      split at h
      next r0 rrest t heqrun heqdrop =>
        cases h
        have hd : (cs.drop ((cs.takeWhile (fun d => d != '\x7d')).length)).length =
            cs.length - ((cs.takeWhile (fun d => d != '\x7d'))).length := by
          simp [List.length_drop]
        rw [heqdrop] at hd
        have hr : 1 ≤ ((cs.takeWhile (fun d => d != '\x7d'))).length := by
          rw [heqrun]; simp
        simp only [List.length_cons] at hd
        omega
      next => exact absurd h (by simp)
    simp only [List.length_cons]
    omega
  · simp only [List.length_cons]
    omega
  · simp only [List.length_cons]
    omega

/-- Python str.replace: replace every non-overlapping occurrence of `pat`
(nonempty in every use below) left to right. -/
def py_replace_go (pat repl : List Char) : List Char → List Char
  | [] => []
  | c :: cs =>
    if 0 < pat.length ∧ pat.isPrefixOf (c :: cs) then
      repl ++ py_replace_go pat repl ((c :: cs).drop pat.length)
    else c :: py_replace_go pat repl cs
termination_by l => l.length
decreasing_by
  · simp only [List.length_cons, List.length_drop]
    omega
  · simp [List.length_cons]

/-- Executor._resolve_template: for each captured variable, look it up in the
context (with the name stripped); when the value is not None, replace every
occurrence of the braced variable with the str() of the value. -/
def resolve_template (template : String) (context : List (String × Value)) : String :=
  (find_template_vars template.data).foldl
    (fun result m =>
      match get_context_value (pyStrip m) context with
      | Value.none => result
      | v =>
        String.mk (py_replace_go ("\x7b\x7b" ++ m ++ "\x7d\x7d").data (py_str v).data
          result.data))
    template

/-- Executor._resolve_parameters: a string value of the exact shape
"$\x7bpath\x7d" is replaced by the context lookup of `path` (value[2:-1]); a
string containing "\x7b\x7b" goes through template resolution; everything else
passes through unchanged. -/
def resolve_parameters (parameters context : List (String × Value)) :
    List (String × Value) :=
  parameters.map fun kv =>
    match kv.2 with
    | Value.str s =>
      if "$\x7b".data.isPrefixOf s.data && "\x7d".data.isSuffixOf s.data then
        (kv.1, get_context_value (String.mk ((s.data.drop 2).dropLast)) context)
      else if containsSub "\x7b\x7b".data s.data then
        (kv.1, Value.str (resolve_template s context))
      else kv
    | _ => kv

/-- Executor._extract_context: only when the result's "success" field is truthy
are the well-known fields copied into a fresh context fragment; otherwise the
fragment is empty. -/
def extract_context (result : List (String × Value)) : List (String × Value) :=
  if truthy (pyGetD result "success") then
    let c0 : List (String × Value) := []
    let c1 := if pyHasKey result "content" then pySet c0 "content" (pyGetD result "content") else c0
    let c2 := if pyHasKey result "file_path" then pySet c1 "file_path" (pyGetD result "file_path") else c1
    let c3 := if pyHasKey result "response" then pySet c2 "api_response" (pyGetD result "response") else c2
    let c4 := if pyHasKey result "results" then pySet c3 "search_results" (pyGetD result "results") else c3
    if pyHasKey result "result" then pySet c4 "calculation_result" (pyGetD result "result") else c4
  else []

/-- Executor._dependencies_satisfied: vacuously true for an empty dependency
list; otherwise every dependency identifier must resolve to a step of the plan
whose status is "completed". -/
def dependencies_satisfied (step : PlanStep) (all_steps : List PlanStep) : Bool :=
  if step.dependencies.isEmpty then true
  else step.dependencies.all fun dep_id =>
    match all_steps.find? (fun s => s.step_id == dep_id) with
    | Option.none => false
    | Option.some dep_step => dep_step.status == "completed"

/-- The dict comprehension of Executor._resolve_dependencies:
`graph = \x7bstep.step_id: step.dependencies for step in steps\x7d`. -/
def graphOf (steps : List PlanStep) : List (Nat × List Nat) :=
  steps.foldl (fun d s => pySet d s.step_id s.dependencies) []

/-- One node of the in-degree bookkeeping of Executor._resolve_dependencies.
In the source, `graph` and `in_degree` are two dicts over exactly the same
keys (`in_degree` is initialised from the keys of `graph` and only existing
keys are ever updated); here they are fused into one association list. -/
structure KEntry where
  id : Nat
  deps : List Nat
  indeg : Int

/-- Initial in-degrees: `in_degree[step_id]` ends up as the number of
dependency occurrences (with multiplicity) that name a key of the graph. -/
def initEntries (graph : List (Nat × List Nat)) : List KEntry :=
  graph.map fun p =>
    ⟨p.1, p.2, ((p.2.filter (fun d => (graph.map (·.1)).contains d)).length : Int)⟩

/-- Number of entries with positive in-degree (termination measure only). -/
def posCount (es : List KEntry) : Nat :=
  (es.filter (fun e => 0 < e.indeg)).length

/-- Effect on `in_degree` of popping `sid`: every entry whose dependency list
contains `sid` is decremented once (the source guards with `if step_id in
deps`, so duplicate occurrences still decrement only once). -/
def decEntries (sid : Nat) (es : List KEntry) : List KEntry :=
  es.map fun e => if e.deps.contains sid then ⟨e.id, e.deps, e.indeg - 1⟩ else e

/-- The ids appended to the queue while popping `sid`: entries whose in-degree
becomes exactly 0, in graph-iteration order. -/
def newlyReady (sid : Nat) (es : List KEntry) : List Nat :=
  (es.filter (fun e => e.deps.contains sid && e.indeg == 1)).map (·.id)

/-- The while-loop of Executor._resolve_dependencies (Kahn's algorithm):
pop the queue front, emit it, decrement its dependents, enqueue entries that
reach in-degree zero. -/
def kahnLoop (es : List KEntry) (queue : List Nat) : List Nat :=
  match queue with
  | [] => []
  | sid :: rest => sid :: kahnLoop (decEntries sid es) (rest ++ newlyReady sid es)
termination_by queue.length + 2 * posCount es
decreasing_by
  have key : posCount (decEntries sid es) + (newlyReady sid es).length ≤ posCount es := by
    have h1 : posCount (decEntries sid es) =
        es.countP (fun e =>
          decide (0 < (if e.deps.contains sid then
            (⟨e.id, e.deps, e.indeg - 1⟩ : KEntry) else e).indeg)) := by
      rw [posCount, decEntries, ← List.countP_eq_length_filter, List.countP_map]
      rfl
    have h2 : (newlyReady sid es).length =
        es.countP (fun e => e.deps.contains sid && e.indeg == 1) := by
      rw [newlyReady, List.length_map, ← List.countP_eq_length_filter]
    have h3 : posCount es = es.countP (fun e => decide (0 < e.indeg)) := by
      rw [posCount, ← List.countP_eq_length_filter]
    rw [h1, h2, h3]
    clear h1 h2 h3
    induction es with
    | nil => simp
    | cons e tl ih =>
      simp only [List.countP_cons]
      have point : ((if (decide (0 < (if e.deps.contains sid then
            (⟨e.id, e.deps, e.indeg - 1⟩ : KEntry) else e).indeg)) = true then 1 else 0) : Nat) +
          (if (e.deps.contains sid && e.indeg == 1) = true then 1 else 0) ≤
          if (decide (0 < e.indeg)) = true then 1 else 0 := by
        cases hc : e.deps.contains sid with
        | false =>
          simp only [hc, Bool.false_and, Bool.false_eq_true, if_false, if_neg]
          split <;> omega
        | true =>
          simp only [hc, Bool.true_and, if_pos]
          by_cases hone : e.indeg = 1
          · have hb : (e.indeg == 1) = true := by simp [hone]
            simp [hb, hone]
          · have hb : (e.indeg == 1) = false := by simp [hone]
            simp only [hb, Bool.false_eq_true, if_false]
            by_cases hpos : (0 : Int) < e.indeg - 1
            · have hpos2 : (0 : Int) < e.indeg := by omega
              simp [hpos, hpos2]
            · simp only [decide_eq_true_eq, if_neg hpos]
              split <;> omega
      omega
  simp only [List.length_append, List.length_cons]
  omega

/-- The kahn part of the computed order (before unreachable steps are
appended). -/
def kahnOrderOf (steps : List PlanStep) : List Nat :=
  let entries := initEntries (graphOf steps)
  kahnLoop entries ((entries.filter (fun e => e.indeg == 0)).map (·.id))

/-- Executor._resolve_dependencies: the kahn order followed by the remaining
steps (cycles or never-ready steps) in their original relative order. -/
def resolve_dependencies (steps : List PlanStep) : List Nat :=
  let order := kahnOrderOf steps
  order ++ (steps.filter (fun s => !order.contains s.step_id)).map (·.step_id)

/-- One record of Executor.execution_history: one per attempted tool
invocation. -/
structure ExecRecord where
  step_id : Nat
  tool : String
  parameters : List (String × Value)
  result : List (String × Value)
  status : String

/-- The mutable state threaded through Executor.execute_plan: the (aliased,
mutated-in-place) plan steps, the per-run context and results dicts, the
executor-lifetime execution_history, the status-assignment trace (pure
instrumentation: one event per `step.status = ...` assignment in the source),
and the state of the external tool registry. -/
structure RunState (σ : Type) where
  steps : List PlanStep
  context : List (String × Value)
  results : List (Nat × List (String × Value))
  history : List ExecRecord
  trace : List (Nat × String)
  toolSt : σ

/-- Executor.execute_step: mark the step in progress, resolve its parameters
against the context, invoke the tool, set the terminal status from the
result's "success" field (Python `result.get("success", False)` truthiness),
store the result on the step and produce the history record.  Every tool
capability is total (tools.py catches internal faults; the registry converts
an unknown tool into a failure result), so the except-branch of the source is
unreachable and not modelled.  Returns the updated step, the result, the tool
state, the appended history record and the status events. -/
def execute_step {σ : Type} (tools : σ → String → List (String × Value) → List (String × Value) × σ)
    (st : σ) (step : PlanStep) (context : List (String × Value)) :
    PlanStep × List (String × Value) × σ × ExecRecord × List (Nat × String) :=
  let resolved_params := resolve_parameters step.parameters context
  let (result, st') := tools st step.tool resolved_params
  let new_status := if truthy (pyGetD result "success") then "completed" else "failed"
  let step' : PlanStep :=
    ⟨step.step_id, step.description, step.tool, step.parameters, step.dependencies,
      new_status, Option.some result⟩
  (step', result, st',
    ⟨step.step_id, step.tool, resolved_params, result, new_status⟩,
    [(step.step_id, "in_progress"), (step.step_id, new_status)])

/-- The retry while-loop of Executor.execute_plan (lines 116-128), with the
number of remaining attempts (`max_retries + 1 - retry_count`) as the
argument: run an attempt; stop on success or when retries are exhausted;
otherwise merge the extracted context of the failed result into the running
context and retry.  Returns the final step object, the last result, the
context as it stands after the loop, the tool state, the history records of
all attempts and the status events. -/
def run_attempts {σ : Type} (tools : σ → String → List (String × Value) → List (String × Value) × σ)
    (st : σ) (step : PlanStep) (context : List (String × Value)) :
    Nat → PlanStep × List (String × Value) × List (String × Value) × σ ×
      List ExecRecord × List (Nat × String)
  | 0 => (step, [], context, st, [], [])
  | Nat.succ n =>
    let (step', result, st', rec, evs) := execute_step tools st step context
    if truthy (pyGetD result "success") then (step', result, context, st', [rec], evs)
    else if n == 0 then (step', result, context, st', [rec], evs)
    else
      let (step'', result'', context'', st'', recs, evs') :=
        run_attempts tools st' step' (pyUpdate context (extract_context result)) n
      (step'', result'', context'', st'', rec :: recs, evs ++ evs')

/-- The failure result recorded for a step whose dependencies are not
satisfied. -/
def depFailResult : List (String × Value) :=
  [("success", Value.bool false), ("error", Value.str "Dependencies not satisfied")]

/-- Replace the first step whose identifier is `sid` (Python mutates the first
matching object returned by `next`). -/
def updateStepById : List PlanStep → Nat → (PlanStep → PlanStep) → List PlanStep
  | [], _, _ => []
  | s :: rest, sid, f =>
    if s.step_id == sid then f s :: rest else s :: updateStepById rest sid f

/-- A copy of a step with a new status (models `step.status = ...`). -/
def setStatus (s : PlanStep) (st : String) : PlanStep :=
  ⟨s.step_id, s.description, s.tool, s.parameters, s.dependencies, st, s.result⟩

/-- The body of the `for step_id in execution_order` loop of
Executor.execute_plan: find the step, gate on dependencies (failing
immediately with `depFailResult` and no tool invocation when unsatisfied),
otherwise run the retry loop and, on success, merge the extracted context and
the namespaced `step_<id>_result` entry into the running context.
`find?` cannot return none (every id of the order is a step id). -/
def process_step {σ : Type} (tools : σ → String → List (String × Value) → List (String × Value) × σ)
    (max_retries : Nat) (rs : RunState σ) (sid : Nat) : RunState σ :=
  match rs.steps.find? (fun s => s.step_id == sid) with
  | Option.none => rs
  | Option.some step =>
    if !(dependencies_satisfied step rs.steps) then
      ⟨updateStepById rs.steps sid (fun s => setStatus s "failed"),
        rs.context, pySet rs.results sid depFailResult, rs.history,
        rs.trace ++ [(sid, "failed")], rs.toolSt⟩
    else
      let (step', result, context', st', recs, evs) :=
        run_attempts tools rs.toolSt step rs.context (max_retries + 1)
      let context'' :=
        if truthy (pyGetD result "success") then
          pySet (pyUpdate context' (extract_context result))
            ("step_" ++ toString sid ++ "_result") (Value.dict result)
        else context'
      ⟨updateStepById rs.steps sid (fun _ => step'), context'',
        pySet rs.results sid result, rs.history ++ recs, rs.trace ++ evs, st'⟩

/-- The Execution Summary returned by Executor.execute_plan. -/
structure ExecSummary where
  success : Bool
  total_steps : Nat
  completed : Nat
  failed : Nat
  pending : Nat
  steps : List PlanStep
  results : List (Nat × List (String × Value))
  execution_history : List ExecRecord

/-- Executor._generate_summary: counts by status over the (mutated) steps;
`success` is `failed == 0`; the summary carries the whole executor-lifetime
execution_history. -/
def generate_summary (steps : List PlanStep)
    (results : List (Nat × List (String × Value))) (history : List ExecRecord) :
    ExecSummary :=
  ⟨(steps.filter (fun s => s.status == "failed")).length == 0,
    steps.length,
    (steps.filter (fun s => s.status == "completed")).length,
    (steps.filter (fun s => s.status == "failed")).length,
    (steps.filter (fun s => s.status == "pending")).length,
    steps, results, history⟩

/-- Executor.execute_plan: compute the execution order, process every id of
the order in sequence starting from an empty per-run context (history0 is the
executor's accumulated execution_history at call time), then generate the
summary.  Returns the summary together with the final run state. -/
def execute_plan {σ : Type} (tools : σ → String → List (String × Value) → List (String × Value) × σ)
    (st : σ) (history0 : List ExecRecord) (steps : List PlanStep) (max_retries : Nat) :
    ExecSummary × RunState σ :=
  let order := resolve_dependencies steps
  let rsF := order.foldl (process_step tools max_retries) ⟨steps, [], [], history0, [], st⟩
  (generate_summary rsF.steps rsF.results rsF.history, rsF)

/-- Planner._matches_pattern: case-insensitive substring test against any of
the patterns. -/
def matches_pattern (task : String) (patterns : List String) : Bool :=
  patterns.any (fun p =>
    containsSub (p.data.map Char.toLower) (task.data.map Char.toLower))

/-- Search for the regex `\d+\.`: equivalent to the existence of a digit
immediately followed by a dot (take the last digit of a run). -/
def searchDigitDot : List Char → Bool
  | c1 :: c2 :: rest => (c1.isDigit && c2 == '.') || searchDigitDot (c2 :: rest)
  | _ => false

/-- Search for `w` followed by at least one whitespace character (the regexes
`then\s+` and `next\s+`), on an already lower-cased character list. -/
def searchWordSpace (w : List Char) : List Char → Bool
  | [] => false
  | c :: cs =>
    (w.isPrefixOf (c :: cs) &&
      (match (c :: cs).drop w.length with
       | d :: _ => isPySpace d
       | [] => false)) || searchWordSpace w cs

/-- Search for `w1`, one or more whitespace characters, then `w2` (the regexes
`and\s+then` and `after\s+that`), on an already lower-cased character list. -/
def searchWordGapWord (w1 w2 : List Char) : List Char → Bool
  | [] => false
  | c :: cs =>
    (w1.isPrefixOf (c :: cs) &&
      (let r := (c :: cs).drop w1.length
       !(r.takeWhile isPySpace).isEmpty &&
         w2.isPrefixOf (r.drop (r.takeWhile isPySpace).length))) || searchWordGapWord w1 w2 cs

/-- Planner._is_multi_step_task: any of the five indicator regexes matches
(numbered list, "then ", "and then", "after that", "next "), case-insensitive. -/
def is_multi_step_task (task : String) : Bool :=
  let low := task.data.map Char.toLower
  searchDigitDot low || searchWordSpace "then".data low ||
    searchWordGapWord "and".data "then".data low ||
    searchWordGapWord "after".data "that".data low ||
    searchWordSpace "next".data low

/-- Case-insensitive literal prefix test (used by the keyword split below). -/
def lowerPrefix (w : List Char) (cs : List Char) : Bool :=
  w.isPrefixOf ((cs.take w.length).map Char.toLower)

/-- The re.split of Planner._decompose_multi_step with the alternation
`then|and then|after that|next` (case-insensitive): scan left to right, at
each position try the alternatives in order; on a match close the current
segment and continue after the matched literal. -/
def split_keywords_go : List Char → List Char → List (List Char)
  | [], acc => [acc.reverse]
  | c :: cs, acc =>
    if lowerPrefix "then".data (c :: cs) then
      acc.reverse :: split_keywords_go ((c :: cs).drop 4) []
    else if lowerPrefix "and then".data (c :: cs) then
      acc.reverse :: split_keywords_go ((c :: cs).drop 8) []
    else if lowerPrefix "after that".data (c :: cs) then
      acc.reverse :: split_keywords_go ((c :: cs).drop 10) []
    else if lowerPrefix "next".data (c :: cs) then
      acc.reverse :: split_keywords_go ((c :: cs).drop 4) []
    else split_keywords_go cs (c :: acc)
termination_by cs _ => cs.length
decreasing_by all_goals simp only [List.length_cons, List.length_drop]; omega

/-- The segments produced by the keyword split of
Planner._decompose_multi_step. -/
def split_keywords (task : String) : List String :=
  (split_keywords_go task.data []).map String.mk

/-- Planner.adjust_plan: if no step failed, return the input unchanged;
otherwise, for every failed step whose tool is "api_call", append a fresh
"web_search" alternative step whose id is the current length of the adjusted
list.  The `execution_results` argument is accepted and ignored, exactly as in
the source. -/
def adjust_plan (steps : List PlanStep)
    (execution_results : List (Nat × List (String × Value))) : List PlanStep :=
  let _ := execution_results
  let failed_steps := steps.filter (fun s => s.status == "failed")
  if failed_steps.isEmpty then steps
  else
    failed_steps.foldl
      (fun adjusted failed_step =>
        if failed_step.tool == "api_call" then
          adjusted ++ [PlanStep.mk0 adjusted.length
            ("Alternative approach for: " ++ failed_step.description)
            "web_search" [("query", Value.str failed_step.description)] []]
        else adjusted)
      steps

/-- The outcome record of AgenticAI.execute (success flag, iterations used,
final summary if any, the early "could not create execution plan" error, and
the accumulated execution context).  The constant fields task and
available_tools of the source's return dict are omitted. -/
structure AgentOutcome where
  success : Bool
  iterations : Nat
  final_result : Option ExecSummary
  error : Option String
  execution_context : List (String × Value)

/-- AgenticAI._update_context: for every completed step with a truthy (non-
empty) result dict, store the namespaced `step_<id>_result` entry and the
last-value keys. -/
def update_context (execution_context : List (String × Value))
    (summary : ExecSummary) : List (String × Value) :=
  summary.steps.foldl
    (fun ctx step =>
      match step.result with
      | Option.none => ctx
      | Option.some result =>
        if step.status == "completed" && !result.isEmpty then
          let c1 := pySet ctx ("step_" ++ toString step.step_id ++ "_result") (Value.dict result)
          let c2 := if pyHasKey result "content" then pySet c1 "last_file_content" (pyGetD result "content") else c1
          let c3 := if pyHasKey result "file_path" then pySet c2 "last_file_path" (pyGetD result "file_path") else c2
          let c4 := if pyHasKey result "api_response" then pySet c3 "last_api_response" (pyGetD result "response") else c3
          if pyHasKey result "search_results" then pySet c4 "last_search_results" (pyGetD result "results") else c4
        else ctx)
    execution_context

/-- The while-loop of AgenticAI.execute, with the remaining iteration budget
(`max_iterations - iteration`, initially 10) as the recursion argument.  The
planner's decomposition policy is abstracted as the function parameter `planF`
(spec 4.2/6: an external, replaceable policy; the concrete Planner.plan is not
total, see the C7 analysis below), applied to the accumulated execution
context; execution uses the executor model above with the default
`max_retries = 2`; replanning uses the faithful `adjust_plan`.  Besides the
outcome, the model returns the number of `plan` invocations and the number of
`execute_plan` invocations performed (instrumentation).  The `all_steps`
accumulator of the source is dead (never read) and not modelled. -/
def agent_loop {σ : Type} (tools : σ → String → List (String × Value) → List (String × Value) × σ)
    (planF : List (String × Value) → List PlanStep) :
    Nat → Nat → List (String × Value) → List ExecRecord → σ → AgentOutcome × Nat × Nat
  | 0, iteration, ctx, _, _ => (⟨false, iteration, Option.none, Option.none, ctx⟩, 0, 0)
  | Nat.succ budget, iteration, ctx, history, st =>
    let steps := planF ctx
    if steps.isEmpty then
      (⟨false, iteration + 1, Option.none, Option.some "Could not create execution plan", ctx⟩, 1, 0)
    else
      let (summary, rs) := execute_plan tools st history steps 2
      let ctx2 := update_context ctx summary
      if summary.success then
        (⟨true, iteration + 1, Option.some summary, Option.none, ctx2⟩, 1, 1)
      else if 0 < summary.failed then
        let adjusted_steps := adjust_plan rs.steps summary.results
        if adjusted_steps.length == rs.steps.length then
          (⟨summary.success, iteration + 1, Option.some summary, Option.none, ctx2⟩, 1, 1)
        else
          let (out, pc, ec) := agent_loop tools planF budget (iteration + 1) ctx2 rs.history rs.toolSt
          (out, pc + 1, ec + 1)
      else
        let (out, pc, ec) := agent_loop tools planF budget (iteration + 1) ctx2 rs.history rs.toolSt
        (out, pc + 1, ec + 1)

/-- The step identifiers of a plan, in order. -/
def stepIds (steps : List PlanStep) : List Nat :=
  steps.map (·.step_id)

/-- The status events of the trace that belong to one step identifier. -/
def traceFor (trace : List (Nat × String)) (sid : Nat) : List (Nat × String) :=
  trace.filter (fun e => e.1 == sid)

/-- The history records that belong to one step identifier. -/
def histFor (h : List ExecRecord) (sid : Nat) : List ExecRecord :=
  h.filter (fun r => r.step_id == sid)

/-- The first step of a list with the given identifier (Python
`next(s for s in steps if s.step_id == step_id)`). -/
def findStep (steps : List PlanStep) (sid : Nat) : Option PlanStep :=
  steps.find? (fun s => s.step_id == sid)

/-- Number of tool invocations attempted for a step in one run: one
"in_progress" status assignment per Executor.execute_step call. -/
def attemptsOf (trace : List (Nat × String)) (sid : Nat) : Nat :=
  (trace.filter (fun e => e.1 == sid && e.2 == "in_progress")).length

/-- The sequence of statuses a step goes through in one run, starting from
the "pending" a freshly planned step carries. -/
def statusesOf (trace : List (Nat × String)) (sid : Nat) : List String :=
  "pending" :: (traceFor trace sid).map (·.2)

/-- The attempt outcomes of a step in one run: its terminal status
assignments, in order ("in_progress" events removed). -/
def outcomesOf (trace : List (Nat × String)) (sid : Nat) : List String :=
  ((traceFor trace sid).filter (fun e => !(e.2 == "in_progress"))).map (·.2)

/-- The status transition relation asserted by the specification (claim C8):
pending to in_progress, and in_progress to a terminal state. -/
def claimTransition (a b : String) : Bool :=
  (a == "pending" && b == "in_progress") ||
    (a == "in_progress" && (b == "completed" || b == "failed"))

/-- The status transition relation the code actually follows: additionally,
a dependency-gated step moves pending to failed directly, and a retried step
re-enters in_progress from failed.  There is still no transition out of
"completed". -/
def codeTransition (a b : String) : Bool :=
  claimTransition a b || (a == "pending" && b == "failed") ||
    (a == "failed" && b == "in_progress")

/-- The in-plan dependency edge relation of a plan: `depRel steps d v` holds
when the step with identifier `v` declares the in-plan identifier `d` as a
dependency.  The dependency graph is a DAG exactly when this relation is
well-founded. -/
def depRel (steps : List PlanStep) (d v : Nat) : Prop :=
  ∃ s ∈ steps, s.step_id = v ∧ d ∈ s.dependencies ∧ d ∈ stepIds steps

/-- A tool-registry model every invocation of which fails (the tool state
counts invocations). -/
def toolsAlwaysFail : Nat → String → List (String × Value) → List (String × Value) × Nat :=
  fun n _ _ => ([("success", Value.bool false), ("error", Value.str "boom")], n + 1)

/-- A tool-registry model whose first invocation fails with a result carrying
a "content" field, and whose later invocations succeed (the tool state counts
invocations). -/
def toolsFailThenOk : Nat → String → List (String × Value) → List (String × Value) × Nat :=
  fun n _ _ =>
    if n == 0 then
      ([("success", Value.bool false), ("error", Value.str "boom"),
        ("content", Value.str "why")], n + 1)
    else ([("success", Value.bool true), ("content", Value.str "ok")], n + 1)

/-- A tool-registry model every invocation of which succeeds. -/
def toolsAlwaysOk : Nat → String → List (String × Value) → List (String × Value) × Nat :=
  fun n _ _ => ([("success", Value.bool true)], n + 1)

/-- A three-step plan whose in-plan dependency graph is a DAG (step 0 needs
step 1, step 1 needs step 2) but whose middle step declares its dependency
twice. -/
def dupDepPlan : List PlanStep :=
  [PlanStep.mk0 0 "a" "t" [] [1], PlanStep.mk0 1 "b" "t" [] [2, 2],
    PlanStep.mk0 2 "c" "t" [] []]

/-- A plan of one dependency-free step. -/
def oneStepPlan : List PlanStep :=
  [PlanStep.mk0 0 "a" "t" [] []]

/-- A failed tool result that carries a well-known field. -/
def failedContentResult : List (String × Value) :=
  [("success", Value.bool false), ("error", Value.str "boom"),
    ("content", Value.str "why")]

/-! Basic lemmas about the dict model and step lookup. -/

theorem pyGet_map_update {κ α : Type _} [BEq κ] [LawfulBEq κ] (d : List (κ × α)) (k k2 : κ)
    (v : α) (hne : k2 ≠ k) :
    pyGet (d.map (fun p => if p.1 == k then (k, v) else p)) k2 = pyGet d k2 := by
  unfold pyGet
  rw [List.find?_map]
  induction d with
  | nil => rfl
  | cons p tl ih =>
    simp only [List.find?, Function.comp]
    by_cases hp : p.1 == k
    · have hk2 : (k == k2) = false := by
        simp only [beq_eq_false_iff_ne, ne_eq]
        exact fun h => hne h.symm
      have hp1 : (p.1 == k2) = false := by
        simp only [beq_eq_false_iff_ne, ne_eq]
        intro h
        exact hne (by rw [← h, eq_of_beq hp])
      simp only [hp, if_pos, hk2, hp1, cond_false]
      exact ih
    · simp only [hp, Bool.false_eq_true, if_false]
      by_cases hp2 : p.1 == k2
      · simp [hp2, hp]
      · simp only [hp2, Bool.false_eq_true, cond_false]
        exact ih

theorem pyGet_pySet_ne {κ α : Type _} [BEq κ] [LawfulBEq κ] (d : List (κ × α)) (k k2 : κ)
    (v : α) (hne : k2 ≠ k) : pyGet (pySet d k v) k2 = pyGet d k2 := by
  unfold pySet
  split
  · exact pyGet_map_update d k k2 v hne
  · unfold pyGet
    rw [List.find?_append]
    have hsingle : List.find? (fun p => p.1 == k2) [(k, v)] = Option.none := by
      have hk2 : (k == k2) = false := by
        simp only [beq_eq_false_iff_ne, ne_eq]
        exact fun h => hne h.symm
      simp [List.find?, hk2]
    simp [hsingle]

theorem findStep_mem {steps : List PlanStep} {sid : Nat} {s : PlanStep}
    (h : findStep steps sid = Option.some s) : s ∈ steps ∧ s.step_id = sid := by
  unfold findStep at h
  refine ⟨List.mem_of_find?_eq_some h, ?_⟩
  have := List.find?_some h
  simpa using this

/-- With distinct identifiers, looking up a member step's identifier finds
that step. -/
theorem findStep_of_nodup {steps : List PlanStep} {s : PlanStep}
    (hnd : (stepIds steps).Nodup) (hs : s ∈ steps) :
    findStep steps s.step_id = Option.some s := by
  unfold findStep
  induction steps with
  | nil => cases hs
  | cons t tl ih =>
    simp only [stepIds, List.map_cons, List.nodup_cons] at hnd
    rcases List.mem_cons.mp hs with h | h
    · subst h
      simp [List.find?]
    · have hne : (t.step_id == s.step_id) = false := by
        simp only [beq_eq_false_iff_ne, ne_eq]
        intro hcontra
        exact hnd.1 (by rw [hcontra]; exact List.mem_map_of_mem _ h)
      simp only [List.find?, hne, cond_false]
      exact ih hnd.2 h

/-- updateStepById preserves every identifier when the update function does. -/
theorem stepIds_updateStepById (steps : List PlanStep) (sid : Nat) (f : PlanStep → PlanStep)
    (hf : ∀ s, s.step_id = sid → (f s).step_id = s.step_id) :
    stepIds (updateStepById steps sid f) = stepIds steps := by
  induction steps with
  | nil => rfl
  | cons t tl ih =>
    unfold updateStepById
    by_cases h : t.step_id == sid
    · have := hf t (by simpa using h)
      simp [h, stepIds, this]
    · simp only [h, Bool.false_eq_true, if_false]
      simp [stepIds] at ih ⊢
      exact ih

/-- Looking up a different identifier is unaffected by updateStepById. -/
theorem findStep_updateStepById_ne (steps : List PlanStep) (sid x : Nat)
    (f : PlanStep → PlanStep)
    (hf : ∀ s, s.step_id = sid → (f s).step_id = s.step_id) (hne : x ≠ sid) :
    findStep (updateStepById steps sid f) x = findStep steps x := by
  induction steps with
  | nil => rfl
  | cons t tl ih =>
    unfold updateStepById
    by_cases h : t.step_id == sid
    · have hid : (f t).step_id = t.step_id := hf t (by simpa using h)
      have hx : (t.step_id == x) = false := by
        simp only [beq_eq_false_iff_ne, ne_eq]
        intro hcontra
        exact hne (by rw [← hcontra]; simpa using h)
      have hx2 : ((f t).step_id == x) = false := by rw [hid]; exact hx
      simp [findStep, List.find?, h, hx, hx2]
    · simp only [h, Bool.false_eq_true, if_false]
      unfold findStep at ih ⊢
      simp only [List.find?]
      by_cases h2 : t.step_id == x
      · simp [h2]
      · simp [h2, ih]

/-! Lemmas about the retry loop. -/

theorem run_attempts_facts {σ : Type}
    (tools : σ → String → List (String × Value) → List (String × Value) × σ) :
    ∀ (n : Nat) (st : σ) (step : PlanStep) (context : List (String × Value))
      (step' : PlanStep) (result ctx2 : List (String × Value)) (st2 : σ)
      (recs : List ExecRecord) (evs : List (Nat × String)),
      0 < n →
      run_attempts tools st step context n = (step', result, ctx2, st2, recs, evs) →
      (step'.step_id = step.step_id ∧ step'.tool = step.tool ∧
        step'.parameters = step.parameters ∧ step'.dependencies = step.dependencies) ∧
      (∀ e ∈ evs, e.1 = step.step_id) ∧
      recs ≠ [] ∧
      recs.length ≤ n ∧
      recs.length = (evs.filter (fun e => e.2 == "in_progress")).length ∧
      (∀ r ∈ recs, r.step_id = step.step_id ∧ r.tool = step.tool ∧
        (r.status = "completed" ∨ r.status = "failed")) ∧
      (∀ r ∈ recs.dropLast, r.status = "failed") ∧
      ((evs.filter (fun e => !(e.2 == "in_progress"))).map (·.2) = recs.map (·.status)) ∧
      (evs.map (·.2)).head? = Option.some "in_progress" ∧
      List.Chain' (fun a b => codeTransition a b = true) ("pending" :: evs.map (·.2)) := by
  intro n
  induction n with
  | zero => intro _ _ _ _ _ _ _ _ _ h _; exact absurd h (by omega)
  | succ m ih =>
    intro st step context step' result ctx2 st2 recs evs _ heq
    rcases htool : tools st step.tool (resolve_parameters step.parameters context)
      with ⟨res0, st0⟩
    by_cases hsucc : truthy (pyGetD res0 "success") = true
    · simp only [run_attempts, execute_step, htool, hsucc, if_true, Prod.mk.injEq] at heq
      obtain ⟨h1, h2, h3, h4, h5, h6⟩ := heq
      subst h1 h2 h3 h4 h5 h6
      refine ⟨⟨rfl, rfl, rfl, rfl⟩, ?_, ?_, ?_, ?_, ?_, ?_, ?_, ?_, ?_⟩ <;>
        simp [codeTransition, claimTransition]
    · by_cases hm : m = 0
      · subst hm
        simp only [run_attempts, execute_step, htool, hsucc, Bool.false_eq_true, if_false,
          beq_self_eq_true, if_true, Prod.mk.injEq] at heq
        obtain ⟨h1, h2, h3, h4, h5, h6⟩ := heq
        subst h1 h2 h3 h4 h5 h6
        refine ⟨⟨rfl, rfl, rfl, rfl⟩, ?_, ?_, ?_, ?_, ?_, ?_, ?_, ?_, ?_⟩ <;>
          simp [codeTransition, claimTransition, hsucc]
      · have hm2 : (m == 0) = false := by simp [hm]
        simp only [run_attempts, execute_step, htool, hsucc, Bool.false_eq_true, if_false,
          hm2] at heq
        rcases hrest : run_attempts tools st0
            ⟨step.step_id, step.description, step.tool, step.parameters, step.dependencies,
              "failed", Option.some res0⟩
            (pyUpdate context (extract_context res0)) m
          with ⟨s3, r3, c3, st3, recs3, evs3⟩
        rw [hrest] at heq
        simp only [Prod.mk.injEq] at heq
        obtain ⟨h1, h2, h3, h4, h5, h6⟩ := heq
        subst h1 h2 h3 h4 h5 h6
        obtain ⟨ihA, ihB, ihC, ihD, ihE, ihF, ihG, ihH, ihI, ihJ⟩ :=
          ih st0 _ (pyUpdate context (extract_context res0)) s3 r3 c3 st3 recs3 evs3
            (by omega) hrest
        have hchain3 : List.Chain' (fun a b => codeTransition a b = true) (evs3.map (·.2)) :=
          (List.chain'_cons'.mp ihJ).2
        refine ⟨ihA, ?_, ?_, ?_, ?_, ?_, ?_, ?_, ?_, ?_⟩
        · intro e he
          simp only [List.cons_append, List.nil_append, List.mem_cons] at he
          rcases he with rfl | rfl | he
          · rfl
          · rfl
          · exact ihB e he
        · simp
        · simp only [List.length_cons]
          omega
        · simp only [List.cons_append, List.nil_append, List.filter_cons, List.length_cons]
          simp only [ihE]
          simp
        · intro r hr
          simp only [List.mem_cons] at hr
          rcases hr with rfl | hr
          · exact ⟨rfl, rfl, Or.inr rfl⟩
          · exact ihF r hr
        · intro r hr
          rw [List.dropLast_cons_of_ne_nil ihC] at hr
          rcases List.mem_cons.mp hr with rfl | hr
          · rfl
          · exact ihG r hr
        · simp only [List.cons_append, List.nil_append, List.filter_cons, List.map_cons]
          simp [ihH]
        · simp
        · have c1 : List.Chain' (fun a b => codeTransition a b = true)
              ("failed" :: evs3.map (·.2)) := by
            rw [List.chain'_cons']
            refine ⟨?_, hchain3⟩
            intro b hb
            rw [ihI] at hb
            simp only [Option.mem_def, Option.some.injEq] at hb
            subst hb
            rfl
          have c2 : List.Chain' (fun a b => codeTransition a b = true)
              ("in_progress" :: "failed" :: evs3.map (·.2)) := by
            rw [List.chain'_cons']
            exact ⟨by intro b hb; simp at hb; subst hb; rfl, c1⟩
          rw [List.chain'_cons']
          refine ⟨?_, ?_⟩
          · intro b hb
            simp only [List.cons_append, List.nil_append, List.map_cons, List.head?_cons,
              Option.mem_def, Option.some.injEq] at hb
            subst hb
            rfl
          · simpa using c2

/-- When every invocation of the step's tool returns an unsuccessful result,
the retry loop uses its entire attempt budget: exactly one history record per
allowed attempt. -/
theorem run_attempts_all_fail {σ : Type}
    (tools : σ → String → List (String × Value) → List (String × Value) × σ) :
    ∀ (n : Nat) (st : σ) (step : PlanStep) (context : List (String × Value))
      (step' : PlanStep) (result ctx2 : List (String × Value)) (st2 : σ)
      (recs : List ExecRecord) (evs : List (Nat × String)),
      (∀ (s : σ) (p : List (String × Value)),
        truthy (pyGetD (tools s step.tool p).1 "success") = false) →
      run_attempts tools st step context n = (step', result, ctx2, st2, recs, evs) →
      recs.length = n := by
  intro n
  induction n with
  | zero =>
    intro st step context step' result ctx2 st2 recs evs _ heq
    simp only [run_attempts, Prod.mk.injEq] at heq
    obtain ⟨_, _, _, _, h5, _⟩ := heq
    subst h5
    rfl
  | succ m ih =>
    intro st step context step' result ctx2 st2 recs evs hfail heq
    rcases htool : tools st step.tool (resolve_parameters step.parameters context)
      with ⟨res0, st0⟩
    have hsucc : truthy (pyGetD res0 "success") = false := by
      have := hfail st (resolve_parameters step.parameters context)
      rw [htool] at this
      exact this
    by_cases hm : m = 0
    · subst hm
      simp only [run_attempts, execute_step, htool, hsucc, Bool.false_eq_true, if_false,
        beq_self_eq_true, if_true, Prod.mk.injEq] at heq
      obtain ⟨_, _, _, _, h5, _⟩ := heq
      subst h5
      rfl
    · have hm2 : (m == 0) = false := by simp [hm]
      simp only [run_attempts, execute_step, htool, hsucc, Bool.false_eq_true, if_false,
        hm2] at heq
      rcases hrest : run_attempts tools st0
          ⟨step.step_id, step.description, step.tool, step.parameters, step.dependencies,
            "failed", Option.some res0⟩
          (pyUpdate context (extract_context res0)) m
        with ⟨s3, r3, c3, st3, recs3, evs3⟩
      rw [hrest] at heq
      simp only [Prod.mk.injEq] at heq
      obtain ⟨_, _, _, _, h5, _⟩ := heq
      subst h5
      have := ih st0
        ⟨step.step_id, step.description, step.tool, step.parameters, step.dependencies,
          "failed", Option.some res0⟩
        (pyUpdate context (extract_context res0)) s3 r3 c3 st3 recs3 evs3 hfail hrest
      simp only [List.length_cons, this]

/-! Lemmas about one loop iteration of execute_plan. -/

theorem process_step_none {σ : Type}
    (tools : σ → String → List (String × Value) → List (String × Value) × σ)
    (mr : Nat) (rs : RunState σ) (sid : Nat)
    (hfind : rs.steps.find? (fun s => s.step_id == sid) = Option.none) :
    process_step tools mr rs sid = rs := by
  unfold process_step
  rw [hfind]

theorem process_step_dep {σ : Type}
    (tools : σ → String → List (String × Value) → List (String × Value) × σ)
    (mr : Nat) (rs : RunState σ) (sid : Nat) (step : PlanStep)
    (hfind : rs.steps.find? (fun s => s.step_id == sid) = Option.some step)
    (hdep : dependencies_satisfied step rs.steps = false) :
    process_step tools mr rs sid =
      ⟨updateStepById rs.steps sid (fun s => setStatus s "failed"), rs.context,
        pySet rs.results sid depFailResult, rs.history,
        rs.trace ++ [(sid, "failed")], rs.toolSt⟩ := by
  unfold process_step
  rw [hfind]
  simp [hdep]

theorem process_step_exec {σ : Type}
    (tools : σ → String → List (String × Value) → List (String × Value) × σ)
    (mr : Nat) (rs : RunState σ) (sid : Nat) (step step' : PlanStep)
    (result ctx2 : List (String × Value)) (st2 : σ)
    (recs : List ExecRecord) (evs : List (Nat × String))
    (hfind : rs.steps.find? (fun s => s.step_id == sid) = Option.some step)
    (hdep : dependencies_satisfied step rs.steps = true)
    (hrun : run_attempts tools rs.toolSt step rs.context (mr + 1) =
      (step', result, ctx2, st2, recs, evs)) :
    process_step tools mr rs sid =
      ⟨updateStepById rs.steps sid (fun _ => step'),
        (if truthy (pyGetD result "success") then
          pySet (pyUpdate ctx2 (extract_context result))
            ("step_" ++ toString sid ++ "_result") (Value.dict result)
        else ctx2),
        pySet rs.results sid result, rs.history ++ recs, rs.trace ++ evs, st2⟩ := by
  unfold process_step
  rw [hfind]
  simp [hdep, hrun]

/-- The identifiers of the plan steps are unchanged by one loop iteration. -/
theorem process_step_stepIds {σ : Type}
    (tools : σ → String → List (String × Value) → List (String × Value) × σ)
    (mr : Nat) (rs : RunState σ) (sid : Nat) :
    stepIds (process_step tools mr rs sid).steps = stepIds rs.steps := by
  rcases hfind : rs.steps.find? (fun s => s.step_id == sid) with _ | step
  · rw [process_step_none tools mr rs sid hfind]
  · have hsid : step.step_id = sid := by
      have := List.find?_some hfind
      simpa using this
    by_cases hdep : dependencies_satisfied step rs.steps
    · rcases hrun : run_attempts tools rs.toolSt step rs.context (mr + 1)
        with ⟨step', result, ctx2, st2, recs, evs⟩
      rw [process_step_exec tools mr rs sid step step' result ctx2 st2 recs evs hfind hdep hrun]
      have hid : step'.step_id = step.step_id :=
        (run_attempts_facts tools (mr + 1) rs.toolSt step rs.context step' result ctx2 st2
          recs evs (by omega) hrun).1.1
      exact stepIds_updateStepById rs.steps sid (fun _ => step')
        (fun s hs => by rw [hid, hsid, hs])
    · rw [process_step_dep tools mr rs sid step hfind (by simpa using hdep)]
      exact stepIds_updateStepById rs.steps sid (fun s => setStatus s "failed")
        (fun s _ => rfl)

/-- Frame property: processing identifier `sid` leaves every observable of a
different identifier `x` unchanged. -/
theorem process_step_frame {σ : Type}
    (tools : σ → String → List (String × Value) → List (String × Value) × σ)
    (mr : Nat) (rs : RunState σ) (sid x : Nat) (hne : x ≠ sid) :
    traceFor (process_step tools mr rs sid).trace x = traceFor rs.trace x ∧
    histFor (process_step tools mr rs sid).history x = histFor rs.history x ∧
    pyGet (process_step tools mr rs sid).results x = pyGet rs.results x ∧
    findStep (process_step tools mr rs sid).steps x = findStep rs.steps x := by
  rcases hfind : rs.steps.find? (fun s => s.step_id == sid) with _ | step
  · rw [process_step_none tools mr rs sid hfind]
    exact ⟨rfl, rfl, rfl, rfl⟩
  · have hsid : step.step_id = sid := by
      have := List.find?_some hfind
      simpa using this
    by_cases hdep : dependencies_satisfied step rs.steps
    · rcases hrun : run_attempts tools rs.toolSt step rs.context (mr + 1)
        with ⟨step', result, ctx2, st2, recs, evs⟩
      obtain ⟨hA, hB, _, _, _, hF, _, _, _, _⟩ :=
        run_attempts_facts tools (mr + 1) rs.toolSt step rs.context step' result ctx2 st2
          recs evs (by omega) hrun
      rw [process_step_exec tools mr rs sid step step' result ctx2 st2 recs evs hfind hdep hrun]
      refine ⟨?_, ?_, ?_, ?_⟩
      · unfold traceFor
        rw [List.filter_append]
        have : evs.filter (fun e => e.1 == x) = [] := by
          rw [List.filter_eq_nil_iff]
          intro e he
          have h1 := hB e he
          simp only [h1, hsid, beq_iff_eq]
          exact fun h => hne h.symm
        rw [this, List.append_nil]
      · unfold histFor
        rw [List.filter_append]
        have : recs.filter (fun r => r.step_id == x) = [] := by
          rw [List.filter_eq_nil_iff]
          intro r hr
          have h1 := (hF r hr).1
          simp only [h1, hsid, beq_iff_eq]
          exact fun h => hne h.symm
        rw [this, List.append_nil]
      · exact pyGet_pySet_ne rs.results sid x result hne
      · exact findStep_updateStepById_ne rs.steps sid x (fun _ => step')
          (fun s hs => by rw [hA.1, hsid, hs]) hne
    · rw [process_step_dep tools mr rs sid step hfind (by simpa using hdep)]
      refine ⟨?_, rfl, ?_, ?_⟩
      · unfold traceFor
        rw [List.filter_append]
        have : [(sid, "failed")].filter (fun e : Nat × String => e.1 == x) = [] := by
          simp only [List.filter_eq_nil_iff, List.mem_singleton]
          intro e he
          subst he
          simp only [beq_iff_eq]
          exact fun h => hne h.symm
        rw [this, List.append_nil]
      · exact pyGet_pySet_ne rs.results sid x depFailResult hne
      · exact findStep_updateStepById_ne rs.steps sid x (fun s => setStatus s "failed")
          (fun s _ => rfl) hne

/-- Frame property over a whole list of processed identifiers. -/
theorem foldl_frame {σ : Type}
    (tools : σ → String → List (String × Value) → List (String × Value) × σ)
    (mr : Nat) (L : List Nat) (rs : RunState σ) (x : Nat) (hx : x ∉ L) :
    traceFor (L.foldl (process_step tools mr) rs).trace x = traceFor rs.trace x ∧
    histFor (L.foldl (process_step tools mr) rs).history x = histFor rs.history x ∧
    pyGet (L.foldl (process_step tools mr) rs).results x = pyGet rs.results x ∧
    findStep (L.foldl (process_step tools mr) rs).steps x = findStep rs.steps x := by
  induction L generalizing rs with
  | nil => exact ⟨rfl, rfl, rfl, rfl⟩
  | cons sid tl ih =>
    have hx1 : x ≠ sid := fun h => hx (by rw [h]; exact List.mem_cons_self sid tl)
    have hx2 : x ∉ tl := fun h => hx (List.mem_cons_of_mem sid h)
    obtain ⟨f1, f2, f3, f4⟩ := process_step_frame tools mr rs sid x hx1
    obtain ⟨g1, g2, g3, g4⟩ := ih (process_step tools mr rs sid) hx2
    exact ⟨g1.trans f1, g2.trans f2, g3.trans f3, g4.trans f4⟩

/-- The step identifiers are invariant over the whole run. -/
theorem foldl_stepIds {σ : Type}
    (tools : σ → String → List (String × Value) → List (String × Value) × σ)
    (mr : Nat) (L : List Nat) (rs : RunState σ) :
    stepIds (L.foldl (process_step tools mr) rs).steps = stepIds rs.steps := by
  induction L generalizing rs with
  | nil => rfl
  | cons sid tl ih =>
    exact (ih (process_step tools mr rs sid)).trans (process_step_stepIds tools mr rs sid)

/-! Lemmas about the dependency-ordering algorithm. -/

theorem kahnLoop_nil (es : List KEntry) : kahnLoop es [] = [] := by
  rw [kahnLoop]

theorem kahnLoop_cons (es : List KEntry) (sid : Nat) (rest : List Nat) :
    kahnLoop es (sid :: rest) =
      sid :: kahnLoop (decEntries sid es) (rest ++ newlyReady sid es) := by
  rw [kahnLoop]

/-- Counting argument, subset direction: when the number of in-plan
dependency occurrences is at most the number of emitted ids that are
dependencies, every in-plan dependency has been emitted. -/
theorem emitted_covers_deps {E deps keys : List Nat} (hE : E.Nodup)
    (hEsub : ∀ x ∈ E, x ∈ keys)
    (hle : (deps.filter (fun d => keys.contains d)).length ≤
      (E.filter (fun d => deps.contains d)).length) :
    ∀ d ∈ deps, d ∈ keys → d ∈ E := by
  intro d hd hdk
  have hBA : (E.filter (fun d => deps.contains d)).toFinset ⊆
      (deps.filter (fun d => keys.contains d)).toFinset := by
    intro x hx
    rw [List.mem_toFinset, List.mem_filter] at hx
    rw [List.mem_toFinset, List.mem_filter]
    refine ⟨by simpa using hx.2, by simp [hEsub x hx.1]⟩
  have hcardB : (E.filter (fun d => deps.contains d)).toFinset.card =
      (E.filter (fun d => deps.contains d)).length :=
    List.toFinset_card_of_nodup (hE.filter _)
  have hcardA : (deps.filter (fun d => keys.contains d)).toFinset.card ≤
      (deps.filter (fun d => keys.contains d)).length :=
    List.toFinset_card_le (deps.filter (fun d => keys.contains d))
  have heq := Finset.eq_of_subset_of_card_le hBA (by omega)
  have hdA : d ∈ (deps.filter (fun d => keys.contains d)).toFinset := by
    rw [List.mem_toFinset, List.mem_filter]
    exact ⟨hd, by simp [hdk]⟩
  rw [← heq, List.mem_toFinset, List.mem_filter] at hdA
  exact hdA.1

/-- Counting argument, equality direction: for a duplicate-free dependency
list all of whose in-plan entries have been emitted, the two filter counts
agree. -/
theorem deps_covered_count {E deps keys : List Nat} (hE : E.Nodup)
    (hEsub : ∀ x ∈ E, x ∈ keys) (hdeps : deps.Nodup)
    (hcov : ∀ d ∈ deps, d ∈ keys → d ∈ E) :
    (deps.filter (fun d => keys.contains d)).length =
      (E.filter (fun d => deps.contains d)).length := by
  have hBA : (E.filter (fun d => deps.contains d)).toFinset ⊆
      (deps.filter (fun d => keys.contains d)).toFinset := by
    intro x hx
    rw [List.mem_toFinset, List.mem_filter] at hx
    rw [List.mem_toFinset, List.mem_filter]
    refine ⟨by simpa using hx.2, by simp [hEsub x hx.1]⟩
  have hAB : (deps.filter (fun d => keys.contains d)).toFinset ⊆
      (E.filter (fun d => deps.contains d)).toFinset := by
    intro x hx
    rw [List.mem_toFinset, List.mem_filter] at hx
    rw [List.mem_toFinset, List.mem_filter]
    have hxk : x ∈ keys := by simpa using hx.2
    exact ⟨hcov x hx.1 hxk, by simp [hx.1]⟩
  have heq : (deps.filter (fun d => keys.contains d)).toFinset =
      (E.filter (fun d => deps.contains d)).toFinset :=
    le_antisymm hAB hBA
  have hcardA : (deps.filter (fun d => keys.contains d)).toFinset.card =
      (deps.filter (fun d => keys.contains d)).length :=
    List.toFinset_card_of_nodup (hdeps.filter _)
  have hcardB : (E.filter (fun d => deps.contains d)).toFinset.card =
      (E.filter (fun d => deps.contains d)).length :=
    List.toFinset_card_of_nodup (hE.filter _)
  rw [← hcardA, ← hcardB, heq]

/-- With duplicate-free keys, two entries sharing an id are the same entry. -/
theorem kentry_eq_of_id {es : List KEntry} (hnd : (es.map (·.id)).Nodup)
    {e1 e2 : KEntry} (h1 : e1 ∈ es) (h2 : e2 ∈ es) (hid : e1.id = e2.id) : e1 = e2 := by
  induction es with
  | nil => cases h1
  | cons e tl ih =>
    simp only [List.map_cons, List.nodup_cons] at hnd
    rcases List.mem_cons.mp h1 with h1e | h1t
    · rcases List.mem_cons.mp h2 with h2e | h2t
      · exact h1e.trans h2e.symm
      · exfalso
        apply hnd.1
        have hm : e2.id ∈ List.map (fun x => x.id) tl := List.mem_map_of_mem _ h2t
        rw [← hid, h1e] at hm
        exact hm
    · rcases List.mem_cons.mp h2 with h2e | h2t
      · exfalso
        apply hnd.1
        have hm : e1.id ∈ List.map (fun x => x.id) tl := List.mem_map_of_mem _ h1t
        rw [hid, h2e] at hm
        exact hm
      · exact ih hnd.2 h1t h2t

/-- Keys are unchanged by a decrement pass. -/
theorem keys_decEntries (sid : Nat) (es : List KEntry) :
    (decEntries sid es).map (·.id) = es.map (·.id) := by
  unfold decEntries
  rw [List.map_map]
  congr 1
  funext e
  by_cases h : sid ∈ e.deps <;> simp [h]

theorem mem_decEntries {sid : Nat} {es : List KEntry} {e : KEntry} (he : e ∈ es) :
    (if sid ∈ e.deps then (⟨e.id, e.deps, e.indeg - 1⟩ : KEntry) else e) ∈
      decEntries sid es := by
  unfold decEntries
  have : (fun e : KEntry => if e.deps.contains sid then
      (⟨e.id, e.deps, e.indeg - 1⟩ : KEntry) else e) e =
      if sid ∈ e.deps then (⟨e.id, e.deps, e.indeg - 1⟩ : KEntry) else e := by
    by_cases h : sid ∈ e.deps <;> simp [h]
  rw [← this]
  exact List.mem_map_of_mem _ he

theorem decEntries_mem_inv {sid : Nat} {es : List KEntry} {e' : KEntry}
    (h : e' ∈ decEntries sid es) :
    ∃ e ∈ es, e' = if sid ∈ e.deps then (⟨e.id, e.deps, e.indeg - 1⟩ : KEntry) else e := by
  unfold decEntries at h
  rcases List.mem_map.mp h with ⟨e, he, heq⟩
  refine ⟨e, he, ?_⟩
  rw [← heq]
  by_cases hc : sid ∈ e.deps <;> simp [hc]

theorem mem_newlyReady_iff {sid q : Nat} {es : List KEntry} :
    q ∈ newlyReady sid es ↔ ∃ e ∈ es, q = e.id ∧ sid ∈ e.deps ∧ e.indeg = 1 := by
  unfold newlyReady
  rw [List.mem_map]
  constructor
  · rintro ⟨e, he, rfl⟩
    rw [List.mem_filter] at he
    have h2 := he.2
    simp only [Bool.and_eq_true, beq_iff_eq] at h2
    refine ⟨e, he.1, rfl, ?_, h2.2⟩
    simpa using h2.1
  · rintro ⟨e, he, rfl, hdep, hone⟩
    refine ⟨e, ?_, rfl⟩
    rw [List.mem_filter]
    exact ⟨he, by simp [hdep, hone]⟩

theorem posCount_dec (sid : Nat) (es : List KEntry) :
    posCount (decEntries sid es) + (newlyReady sid es).length ≤ posCount es := by
  have h1 : posCount (decEntries sid es) =
      es.countP (fun e =>
        decide (0 < (if e.deps.contains sid then
          (⟨e.id, e.deps, e.indeg - 1⟩ : KEntry) else e).indeg)) := by
    rw [posCount, decEntries, ← List.countP_eq_length_filter, List.countP_map]
    rfl
  have h2 : (newlyReady sid es).length =
      es.countP (fun e => e.deps.contains sid && e.indeg == 1) := by
    rw [newlyReady, List.length_map, ← List.countP_eq_length_filter]
  have h3 : posCount es = es.countP (fun e => decide (0 < e.indeg)) := by
    rw [posCount, ← List.countP_eq_length_filter]
  rw [h1, h2, h3]
  clear h1 h2 h3
  induction es with
  | nil => simp
  | cons e tl ih =>
    simp only [List.countP_cons]
    have point : ((if (decide (0 < (if e.deps.contains sid then
          (⟨e.id, e.deps, e.indeg - 1⟩ : KEntry) else e).indeg)) = true then 1 else 0) : Nat) +
        (if (e.deps.contains sid && e.indeg == 1) = true then 1 else 0) ≤
        if (decide (0 < e.indeg)) = true then 1 else 0 := by
      cases hc : e.deps.contains sid with
      | false =>
        simp only [hc, Bool.false_and, Bool.false_eq_true, if_false, if_neg]
        split <;> omega
      | true =>
        simp only [hc, Bool.true_and, if_pos]
        by_cases hone : e.indeg = 1
        · have hb : (e.indeg == 1) = true := by simp [hone]
          simp [hb, hone]
        · have hb : (e.indeg == 1) = false := by simp [hone]
          simp only [hb, Bool.false_eq_true, if_false]
          by_cases hpos : (0 : Int) < e.indeg - 1
          · have hpos2 : (0 : Int) < e.indeg := by omega
            simp [hpos, hpos2]
          · simp only [decide_eq_true_eq, if_neg hpos]
            split <;> omega
    omega

/-- All invariants of Kahn's loop, established together by induction on the
termination measure.  `E` is the list of already-emitted identifiers.
Conclusions: the emitted order is duplicate-free and consists of keys; every
queued id is eventually emitted; a never-emitted entry with duplicate-free
dependencies has a never-emitted in-plan dependency; and every emitted id
comes after all of its in-plan dependencies. -/
theorem kahn_master :
    ∀ (n : Nat) (es : List KEntry) (queue E : List Nat),
      queue.length + 2 * posCount es ≤ n →
      (es.map (·.id)).Nodup →
      (E ++ queue).Nodup →
      (∀ q ∈ E ++ queue, q ∈ es.map (·.id)) →
      (∀ e ∈ es, e.id ∈ E ++ queue → e.indeg ≤ 0) →
      (∀ e ∈ es, e.indeg = 0 → e.id ∈ E ++ queue) →
      (∀ e ∈ es, e.indeg =
        ((e.deps.filter (fun d => (es.map (·.id)).contains d)).length : Int) -
          ((E.filter (fun d => e.deps.contains d)).length : Int)) →
      ((E ++ kahnLoop es queue).Nodup ∧
       (∀ x ∈ kahnLoop es queue, x ∈ es.map (·.id)) ∧
       (∀ q ∈ queue, q ∈ kahnLoop es queue) ∧
       (∀ e ∈ es, e.deps.Nodup → e.id ∉ E ++ kahnLoop es queue →
         ∃ d, d ∈ e.deps ∧ d ∈ es.map (·.id) ∧ d ∉ E ++ kahnLoop es queue) ∧
       (∀ (o1 : List Nat) (x : Nat) (o2 : List Nat), kahnLoop es queue = o1 ++ x :: o2 →
         ∀ e ∈ es, e.id = x → ∀ d ∈ e.deps, d ∈ es.map (·.id) → d ∈ E ++ o1)) := by
  intro n
  induction n with
  | zero =>
    intro es queue E hn hnd hEq hsub hneg hzero hdeg
    have hq : queue = [] := by
      cases queue with
      | nil => rfl
      | cons a l => simp at hn
    subst hq
    rw [kahnLoop_nil]
    refine ⟨hEq, by simp, by simp, ?_, by simp⟩
    intro e he hdnd hid
    by_contra hcon
    push_neg at hcon
    have hE : E.Nodup := by simpa using hEq
    have hEsub : ∀ x ∈ E, x ∈ es.map (·.id) := fun x hx => hsub x (by simpa using hx)
    have hcov : ∀ d ∈ e.deps, d ∈ es.map (·.id) → d ∈ E := by
      intro d hd hk
      have := hcon d hd hk
      simpa using this
    have hcount := deps_covered_count hE hEsub hdnd hcov
    have hdeg2 := hdeg e he
    rw [hcount] at hdeg2
    have hzero2 : e.indeg = 0 := by omega
    have := hzero e he hzero2
    exact hid this
  | succ n ih =>
    intro es queue E hn hnd hEq hsub hneg hzero hdeg
    cases queue with
    | nil =>
      rw [kahnLoop_nil]
      refine ⟨hEq, by simp, by simp, ?_, by simp⟩
      intro e he hdnd hid
      by_contra hcon
      push_neg at hcon
      have hE : E.Nodup := by simpa using hEq
      have hEsub : ∀ x ∈ E, x ∈ es.map (·.id) := fun x hx => hsub x (by simpa using hx)
      have hcov : ∀ d ∈ e.deps, d ∈ es.map (·.id) → d ∈ E := by
        intro d hd hk
        have := hcon d hd hk
        simpa using this
      have hcount := deps_covered_count hE hEsub hdnd hcov
      have hdeg2 := hdeg e he
      rw [hcount] at hdeg2
      have hzero2 : e.indeg = 0 := by omega
      have := hzero e he hzero2
      exact hid this
    | cons sid rest =>
      rw [kahnLoop_cons]
      have hkeys : (decEntries sid es).map (·.id) = es.map (·.id) := keys_decEntries sid es
      have hsidq : sid ∈ E ++ sid :: rest := by simp
      -- measure
      have hm : (rest ++ newlyReady sid es).length + 2 * posCount (decEntries sid es) ≤ n := by
        have hk := posCount_dec sid es
        simp only [List.length_append, List.length_cons] at hn ⊢
        omega
      -- nodup of new emitted/queue
      have hnewnd : (newlyReady sid es).Nodup := by
        unfold newlyReady
        have hsl : ((es.filter (fun e => e.deps.contains sid && e.indeg == 1)).map (·.id)).Sublist
            (es.map (·.id)) := (List.filter_sublist es).map _
        exact hnd.sublist hsl
      have hnewdisj : ∀ a ∈ E ++ sid :: rest, a ∉ newlyReady sid es := by
        intro a ha hanew
        rcases mem_newlyReady_iff.mp hanew with ⟨e2, he2, rfl, _, hone⟩
        have := hneg e2 he2 ha
        omega
      have hEq' : ((E ++ [sid]) ++ (rest ++ newlyReady sid es)).Nodup := by
        have hshape : (E ++ [sid]) ++ (rest ++ newlyReady sid es) =
            (E ++ sid :: rest) ++ newlyReady sid es := by
          simp
        rw [hshape, List.nodup_append]
        refine ⟨hEq, hnewnd, ?_⟩
        intro a ha
        exact hnewdisj a ha
      have hsub' : ∀ q ∈ (E ++ [sid]) ++ (rest ++ newlyReady sid es),
          q ∈ (decEntries sid es).map (·.id) := by
        intro q hq
        rw [hkeys]
        simp only [List.mem_append, List.mem_cons, List.not_mem_nil, or_false] at hq
        rcases hq with (hq | hq) | hq | hq
        · exact hsub q (by simp [hq])
        · exact hsub q (by simp [hq])
        · exact hsub q (by simp [hq])
        · rcases mem_newlyReady_iff.mp hq with ⟨e2, he2, rfl, _, _⟩
          exact List.mem_map_of_mem _ he2
      have hneg' : ∀ e' ∈ decEntries sid es,
          e'.id ∈ (E ++ [sid]) ++ (rest ++ newlyReady sid es) → e'.indeg ≤ 0 := by
        intro e' he' hid
        rcases decEntries_mem_inv he' with ⟨e, he, rfl⟩
        have hidsame : (if sid ∈ e.deps then
            (⟨e.id, e.deps, e.indeg - 1⟩ : KEntry) else e).id = e.id := by
          by_cases hc : sid ∈ e.deps <;> simp [hc]
        rw [hidsame] at hid
        simp only [List.mem_append, List.mem_cons, List.not_mem_nil, or_false] at hid
        rcases hid with (hid | hid) | hid | hid
        · have := hneg e he (by simp [hid])
          by_cases hc : sid ∈ e.deps <;> simp [hc] <;> omega
        · have := hneg e he (by simp [hid])
          by_cases hc : sid ∈ e.deps <;> simp [hc] <;> omega
        · have := hneg e he (by simp [hid])
          by_cases hc : sid ∈ e.deps <;> simp [hc] <;> omega
        · rcases mem_newlyReady_iff.mp hid with ⟨e2, he2, hideq, hdep2, hone2⟩
          have he2e : e2 = e := kentry_eq_of_id hnd he2 he hideq.symm
          subst he2e
          simp [hdep2, hone2]
      have hzero' : ∀ e' ∈ decEntries sid es, e'.indeg = 0 →
          e'.id ∈ (E ++ [sid]) ++ (rest ++ newlyReady sid es) := by
        intro e' he' hz
        rcases decEntries_mem_inv he' with ⟨e, he, rfl⟩
        by_cases hc : sid ∈ e.deps
        · rw [if_pos hc] at hz ⊢
          change e.indeg - 1 = 0 at hz
          have hone : e.indeg = 1 := by omega
          have hmem : e.id ∈ newlyReady sid es :=
            mem_newlyReady_iff.mpr ⟨e, he, rfl, hc, hone⟩
          simp [hmem]
        · rw [if_neg hc] at hz ⊢
          have hm2 := hzero e he hz
          simp only [List.mem_append, List.mem_cons] at hm2
          rcases hm2 with h2 | h2 | h2 <;> simp [h2]
      have hdeg' : ∀ e' ∈ decEntries sid es, e'.indeg =
          ((e'.deps.filter (fun d => ((decEntries sid es).map (·.id)).contains d)).length : Int) -
            (((E ++ [sid]).filter (fun d => e'.deps.contains d)).length : Int) := by
        intro e' he'
        rcases decEntries_mem_inv he' with ⟨e, he, rfl⟩
        rw [hkeys]
        have hbase := hdeg e he
        by_cases hc : sid ∈ e.deps
        · simp only [hc, if_pos]
          simp only [List.filter_append]
          have : [sid].filter (fun d => e.deps.contains d) = [sid] := by simp [hc]
          rw [this]
          simp only [List.length_append, List.length_singleton]
          push_cast
          omega
        · simp only [hc, if_neg, if_false]
          simp only [List.filter_append]
          have : [sid].filter (fun d => e.deps.contains d) = [] := by simp [hc]
          rw [this]
          simpa using hbase
      obtain ⟨c1, c2, c3, c4, c5⟩ := ih (decEntries sid es) (rest ++ newlyReady sid es)
        (E ++ [sid]) hm (by rw [hkeys]; exact hnd) hEq' hsub' hneg' hzero' hdeg'
      set out2 := kahnLoop (decEntries sid es) (rest ++ newlyReady sid es) with hout2
      have hmemEq : ∀ (a : Nat), a ∈ E ++ sid :: out2 ↔ a ∈ (E ++ [sid]) ++ out2 := by
        intro a
        simp only [List.mem_append, List.mem_cons, List.mem_singleton]
        tauto
      refine ⟨?_, ?_, ?_, ?_, ?_⟩
      · have : (E ++ [sid]) ++ out2 = E ++ sid :: out2 := by simp
        rw [← this]
        exact c1
      · intro x hx
        rcases List.mem_cons.mp hx with rfl | hx
        · exact hsub x hsidq
        · rw [← hkeys]
          exact c2 x hx
      · intro q hq
        rcases List.mem_cons.mp hq with rfl | hq
        · exact List.mem_cons_self _ _
        · exact List.mem_cons_of_mem _ (c3 q (by simp [hq]))
      · intro e he hdnd hid
        have he' := @mem_decEntries sid _ _ he
        have hidsame : (if sid ∈ e.deps then
            (⟨e.id, e.deps, e.indeg - 1⟩ : KEntry) else e).id = e.id := by
          by_cases hc : sid ∈ e.deps <;> simp [hc]
        have hdepssame : (if sid ∈ e.deps then
            (⟨e.id, e.deps, e.indeg - 1⟩ : KEntry) else e).deps = e.deps := by
          by_cases hc : sid ∈ e.deps <;> simp [hc]
        have hid' : (if sid ∈ e.deps then
            (⟨e.id, e.deps, e.indeg - 1⟩ : KEntry) else e).id ∉ (E ++ [sid]) ++ out2 := by
          rw [hidsame]
          intro hcontra
          exact hid ((hmemEq e.id).mpr hcontra)
        obtain ⟨d, hd, hdk, hdnot⟩ := c4 _ he' (by rw [hdepssame]; exact hdnd) hid'
        rw [hdepssame] at hd
        rw [hkeys] at hdk
        refine ⟨d, hd, hdk, ?_⟩
        intro hcontra
        exact hdnot ((hmemEq d).mp hcontra)
      · intro o1 x o2 hsplit e he hex d hd hdk
        cases o1 with
        | nil =>
          simp only [List.nil_append, List.cons.injEq] at hsplit
          obtain ⟨hx, _⟩ := hsplit
          subst hx
          have hle : ((e.deps.filter (fun d => (es.map (·.id)).contains d)).length : Int) ≤
              ((E.filter (fun d => e.deps.contains d)).length : Int) := by
            have hneg2 := hneg e he (by rw [hex]; exact hsidq)
            have := hdeg e he
            omega
          have hE : E.Nodup := hEq.of_append_left
          have hEsub : ∀ y ∈ E, y ∈ es.map (·.id) := fun y hy => hsub y (by simp [hy])
          have hcov := emitted_covers_deps hE hEsub (by exact_mod_cast hle) d hd hdk
          simp [hcov]
        | cons y o1' =>
          simp only [List.cons_append, List.cons.injEq] at hsplit
          obtain ⟨hy, hout⟩ := hsplit
          subst hy
          have he' := @mem_decEntries sid _ _ he
          have hidsame : (if sid ∈ e.deps then
              (⟨e.id, e.deps, e.indeg - 1⟩ : KEntry) else e).id = e.id := by
            by_cases hc : sid ∈ e.deps <;> simp [hc]
          have hdepssame : (if sid ∈ e.deps then
              (⟨e.id, e.deps, e.indeg - 1⟩ : KEntry) else e).deps = e.deps := by
            by_cases hc : sid ∈ e.deps <;> simp [hc]
          have hfin := c5 o1' x o2 hout _ he' (by rw [hidsame]; exact hex)
            d (by rw [hdepssame]; exact hd) (by rw [hkeys]; exact hdk)
          simp only [List.mem_append, List.mem_cons, List.not_mem_nil, or_false] at hfin ⊢
          tauto

theorem pyHasKey_false {κ α : Type _} [BEq κ] [LawfulBEq κ] {d : List (κ × α)} {k : κ}
    (h : k ∉ d.map (·.1)) : pyHasKey d k = false := by
  unfold pyHasKey
  rw [List.any_eq_false]
  intro p hp
  simp only [beq_eq_false_iff_ne, ne_eq, Bool.not_eq_true, beq_iff_eq]
  intro hc
  exact h (hc ▸ List.mem_map_of_mem (·.1) hp)

/-- With duplicate-free identifiers the graph dict is just the association
list of (id, dependencies) pairs in plan order. -/
theorem graphOf_eq (steps : List PlanStep) (hnd : (stepIds steps).Nodup) :
    graphOf steps = steps.map (fun s => (s.step_id, s.dependencies)) := by
  have main : ∀ (l : List PlanStep) (acc : List (Nat × List Nat)),
      (acc.map (·.1) ++ stepIds l).Nodup →
      l.foldl (fun d s => pySet d s.step_id s.dependencies) acc =
        acc ++ l.map (fun s => (s.step_id, s.dependencies)) := by
    intro l
    induction l with
    | nil => intro acc _; simp
    | cons s tl ih =>
      intro acc hacc
      simp only [List.foldl_cons]
      have hnotin : s.step_id ∉ acc.map (·.1) := by
        intro hc
        have : ¬ (acc.map (·.1) ++ stepIds (s :: tl)).Nodup := by
          intro hno
          rcases List.nodup_append.mp hno with ⟨_, _, hdisj⟩
          exact hdisj hc (by simp [stepIds])
        exact this hacc
      have hset : pySet acc s.step_id s.dependencies = acc ++ [(s.step_id, s.dependencies)] := by
        unfold pySet
        rw [pyHasKey_false hnotin]
        simp
      rw [hset, ih (acc ++ [(s.step_id, s.dependencies)]) ?_]
      · simp
      · simp only [List.map_append, List.map_cons, List.map_nil]
        have : (acc.map (·.1) ++ [s.step_id]) ++ stepIds tl =
            acc.map (·.1) ++ (s.step_id :: stepIds tl) := by simp
        rw [this]
        simpa [stepIds] using hacc
  have := main steps []
  simp only [List.map_nil, List.nil_append] at this
  exact this hnd

/-- Under duplicate-free identifiers, the fused entry list is the plan list
itself, in order, with each step's initial in-degree attached. -/
theorem initEntries_graphOf (steps : List PlanStep) (hnd : (stepIds steps).Nodup) :
    initEntries (graphOf steps) =
      steps.map (fun s => (⟨s.step_id, s.dependencies,
        ((s.dependencies.filter (fun d => (stepIds steps).contains d)).length : Int)⟩ : KEntry)) := by
  unfold initEntries
  rw [graphOf_eq steps hnd]
  rw [List.map_map, List.map_map]
  congr 1

/-- The keys of the entry list are the plan's identifiers. -/
theorem keys_initEntries (steps : List PlanStep) (hnd : (stepIds steps).Nodup) :
    (initEntries (graphOf steps)).map (·.id) = stepIds steps := by
  rw [initEntries_graphOf steps hnd, List.map_map]
  rfl

/-- The Kahn invariants instantiated at the top-level call of
Executor._resolve_dependencies, phrased over the plan steps. -/
theorem kahnOrder_master (steps : List PlanStep) (hnd : (stepIds steps).Nodup) :
    (kahnOrderOf steps).Nodup ∧
    (∀ x ∈ kahnOrderOf steps, x ∈ stepIds steps) ∧
    (∀ s ∈ steps, s.dependencies.Nodup → s.step_id ∉ kahnOrderOf steps →
      ∃ d, d ∈ s.dependencies ∧ d ∈ stepIds steps ∧ d ∉ kahnOrderOf steps) ∧
    (∀ (o1 : List Nat) (x : Nat) (o2 : List Nat), kahnOrderOf steps = o1 ++ x :: o2 →
      ∀ s ∈ steps, s.step_id = x → ∀ d ∈ s.dependencies, d ∈ stepIds steps → d ∈ o1) := by
  have hkeys : (initEntries (graphOf steps)).map (·.id) = stepIds steps :=
    keys_initEntries steps hnd
  have hes := initEntries_graphOf steps hnd
  have hmem_entry : ∀ s ∈ steps,
      (⟨s.step_id, s.dependencies,
        ((s.dependencies.filter (fun d => (stepIds steps).contains d)).length : Int)⟩ : KEntry) ∈
        initEntries (graphOf steps) := by
    intro s hs
    rw [hes]
    exact List.mem_map_of_mem _ hs
  have hentry_inv : ∀ e ∈ initEntries (graphOf steps), ∃ s ∈ steps,
      e = (⟨s.step_id, s.dependencies,
        ((s.dependencies.filter (fun d => (stepIds steps).contains d)).length : Int)⟩ : KEntry) := by
    intro e he
    rw [hes] at he
    rcases List.mem_map.mp he with ⟨s, hs, heq⟩
    exact ⟨s, hs, heq.symm⟩
  have hq0nd : ((initEntries (graphOf steps)).filter (fun e => e.indeg == 0)).map (·.id)
      |>.Nodup := by
    have hsl : (((initEntries (graphOf steps)).filter (fun e => e.indeg == 0)).map (·.id)).Sublist
        ((initEntries (graphOf steps)).map (·.id)) := (List.filter_sublist _).map _
    exact (hkeys ▸ hnd).sublist hsl
  obtain ⟨c1, c2, c3, c4, c5⟩ := kahn_master
    ((((initEntries (graphOf steps)).filter (fun e => e.indeg == 0)).map (·.id)).length +
      2 * posCount (initEntries (graphOf steps)))
    (initEntries (graphOf steps))
    (((initEntries (graphOf steps)).filter (fun e => e.indeg == 0)).map (·.id))
    [] (le_refl _) (hkeys ▸ hnd) (by simpa using hq0nd)
    (by
      intro q hq
      simp only [List.nil_append] at hq
      rcases List.mem_map.mp hq with ⟨e, he, rfl⟩
      exact List.mem_map_of_mem _ (List.mem_of_mem_filter he))
    (by
      intro e he hid
      simp only [List.nil_append] at hid
      rcases List.mem_map.mp hid with ⟨e2, he2, hideq⟩
      have he2' := List.mem_of_mem_filter he2
      have heq : e2 = e := kentry_eq_of_id (hkeys ▸ hnd) he2' he hideq
      have := (List.mem_filter.mp he2).2
      rw [heq] at this
      simp only [beq_iff_eq] at this
      omega)
    (by
      intro e he hz
      simp only [List.nil_append]
      refine List.mem_map_of_mem _ (List.mem_filter.mpr ⟨he, ?_⟩)
      simp [hz])
    (by
      intro e he
      rcases hentry_inv e he with ⟨s, _, rfl⟩
      simp only [List.filter_nil, List.length_nil, Nat.cast_zero, Int.ofNat_eq_coe]
      rw [hkeys]
      simp)
  have horder : kahnOrderOf steps =
      kahnLoop (initEntries (graphOf steps))
        (((initEntries (graphOf steps)).filter (fun e => e.indeg == 0)).map (·.id)) := rfl
  refine ⟨?_, ?_, ?_, ?_⟩
  · rw [horder]
    simpa using c1
  · intro x hx
    rw [horder] at hx
    rw [← hkeys]
    exact c2 x hx
  · intro s hs hdnd hnot
    rw [horder] at hnot
    obtain ⟨d, hd, hdk, hdnot⟩ := c4 _ (hmem_entry s hs) hdnd (by simpa using hnot)
    rw [hkeys] at hdk
    refine ⟨d, hd, hdk, ?_⟩
    rw [horder]
    intro hc
    exact hdnot (by simpa using hc)
  · intro o1 x o2 hsplit s hs hsid d hd hdk
    rw [horder] at hsplit
    have := c5 o1 x o2 hsplit _ (hmem_entry s hs) hsid d hd (by rw [hkeys]; exact hdk)
    simpa using this

theorem count_remaining (steps : List PlanStep) (K : List Nat) (a : Nat) :
    (((steps.filter (fun s => !K.contains s.step_id)).map (·.step_id)).count a) =
      if a ∈ K then 0 else ((steps.map (·.step_id)).count a) := by
  induction steps with
  | nil => simp
  | cons s tl ih =>
    simp only [List.filter_cons, List.map_cons]
    by_cases hk : s.step_id ∈ K
    · have hc : (!K.contains s.step_id) = false := by simp [hk]
      rw [hc]
      simp only [Bool.false_eq_true, if_false]
      by_cases ha : a ∈ K
      · rw [ih, if_pos ha, if_pos ha]
      · rw [ih, if_neg ha, if_neg ha, List.count_cons]
        have hne : ¬ (s.step_id = a) := fun h => ha (h ▸ hk)
        simp [hne]
    · have hc : (!K.contains s.step_id) = true := by simp [hk]
      rw [hc]
      simp only [if_true, List.map_cons]
      by_cases ha : a ∈ K
      · rw [List.count_cons, ih, if_pos ha, if_pos ha]
        have hne : ¬ (s.step_id = a) := fun h => hk (h ▸ ha)
        simp [hne]
      · rw [List.count_cons, List.count_cons, ih, if_neg ha, if_neg ha]

/-- The computed execution order is a permutation of the plan's identifiers
(claim C4's "each step identifier exactly once"). -/
theorem resolve_dependencies_perm (steps : List PlanStep)
    (hnd : (stepIds steps).Nodup) :
    List.Perm (resolve_dependencies steps) (stepIds steps) := by
  rw [List.perm_iff_count]
  intro a
  obtain ⟨hKnd, hKsub, _, _⟩ := kahnOrder_master steps hnd
  have hres : resolve_dependencies steps =
      kahnOrderOf steps ++
        (steps.filter (fun s => !(kahnOrderOf steps).contains s.step_id)).map (·.step_id) :=
    rfl
  rw [hres, List.count_append, count_remaining]
  by_cases ha : a ∈ kahnOrderOf steps
  · rw [if_pos ha]
    have h1 : (kahnOrderOf steps).count a = 1 := List.count_eq_one_of_mem hKnd ha
    have ha2 : a ∈ stepIds steps := hKsub a ha
    have h2 : (stepIds steps).count a = 1 := List.count_eq_one_of_mem hnd ha2
    omega
  · rw [if_neg ha]
    have h1 : (kahnOrderOf steps).count a = 0 := List.count_eq_zero.mpr ha
    rw [h1]
    unfold stepIds
    omega

/-- On an acyclic plan with duplicate-free identifiers and duplicate-free
dependency lists, the Kahn phase emits every identifier. -/
theorem kahn_complete (steps : List PlanStep) (hnd : (stepIds steps).Nodup)
    (hdeps : ∀ s ∈ steps, s.dependencies.Nodup)
    (hwf : WellFounded (depRel steps)) :
    ∀ a ∈ stepIds steps, a ∈ kahnOrderOf steps := by
  by_contra hcon
  push_neg at hcon
  obtain ⟨a0, ha0ids, ha0not⟩ := hcon
  obtain ⟨_, _, c4, _⟩ := kahnOrder_master steps hnd
  have hS : Set.Nonempty {x : Nat | x ∈ stepIds steps ∧ x ∉ kahnOrderOf steps} :=
    ⟨a0, ha0ids, ha0not⟩
  obtain ⟨m, ⟨hmids, hmnot⟩, hmin⟩ := hwf.has_min _ hS
  rcases List.mem_map.mp hmids with ⟨s, hs, hsid⟩
  obtain ⟨d, hd, hdids, hdnot⟩ := c4 s hs (hdeps s hs) (by rw [hsid]; exact hmnot)
  exact hmin d ⟨hdids, hdnot⟩ ⟨s, hs, hsid, hd, hdids⟩

/-- On an acyclic plan the appended remainder is empty: the order is exactly
the Kahn order. -/
theorem resolve_dependencies_of_acyclic (steps : List PlanStep)
    (hnd : (stepIds steps).Nodup)
    (hdeps : ∀ s ∈ steps, s.dependencies.Nodup)
    (hwf : WellFounded (depRel steps)) :
    resolve_dependencies steps = kahnOrderOf steps := by
  have hcomplete := kahn_complete steps hnd hdeps hwf
  have hnil : steps.filter (fun s => !(kahnOrderOf steps).contains s.step_id) = [] := by
    rw [List.filter_eq_nil_iff]
    intro s hs
    have := hcomplete s.step_id (List.mem_map_of_mem _ hs)
    simp [this]
  have hres : resolve_dependencies steps =
      kahnOrderOf steps ++
        (steps.filter (fun s => !(kahnOrderOf steps).contains s.step_id)).map (·.step_id) :=
    rfl
  rw [hres, hnil]
  simp

/-- Topological-order property of the computed execution order on acyclic
plans with duplicate-free identifiers and dependency lists. -/
theorem resolve_dependencies_topological (steps : List PlanStep)
    (hnd : (stepIds steps).Nodup)
    (hdeps : ∀ s ∈ steps, s.dependencies.Nodup)
    (hwf : WellFounded (depRel steps)) :
    ∀ s ∈ steps, ∀ d ∈ s.dependencies, d ∈ stepIds steps →
      (resolve_dependencies steps).indexOf d <
        (resolve_dependencies steps).indexOf s.step_id := by
  intro s hs d hd hdids
  obtain ⟨hKnd, _, _, c5⟩ := kahnOrder_master steps hnd
  rw [resolve_dependencies_of_acyclic steps hnd hdeps hwf]
  have hsmem : s.step_id ∈ kahnOrderOf steps :=
    kahn_complete steps hnd hdeps hwf s.step_id (List.mem_map_of_mem _ hs)
  obtain ⟨o1, o2, hsplit⟩ := List.append_of_mem hsmem
  have hdmem : d ∈ o1 := c5 o1 s.step_id o2 hsplit s hs rfl d hd hdids
  rw [hsplit]
  have hnd2 := hsplit ▸ hKnd
  have hnotin : s.step_id ∉ o1 := by
    rcases List.nodup_append.mp hnd2 with ⟨_, _, hdisj⟩
    intro hc
    exact hdisj hc (List.mem_cons_self _ _)
  rw [List.indexOf_append_of_mem hdmem, List.indexOf_append_of_not_mem hnotin,
    List.indexOf_cons_self]
  have := List.indexOf_lt_length.mpr hdmem
  omega

theorem findStep_updateStepById_self (steps : List PlanStep) (sid : Nat)
    (f : PlanStep → PlanStep) (s : PlanStep)
    (hf : ∀ t, t.step_id = sid → (f t).step_id = t.step_id)
    (hfind : findStep steps sid = Option.some s) :
    findStep (updateStepById steps sid f) sid = Option.some (f s) := by
  induction steps with
  | nil => simp [findStep] at hfind
  | cons t tl ih =>
    unfold findStep at hfind ih ⊢
    unfold updateStepById
    by_cases h : t.step_id == sid
    · simp only [List.find?, h, cond_true, Option.some.injEq] at hfind
      subst hfind
      simp only [h, if_true, List.find?]
      have hid : (f t).step_id = t.step_id := hf t (by simpa using h)
      have h2 : ((f t).step_id == sid) = true := by rw [hid]; exact h
      simp [h2]
    · simp only [List.find?, h, cond_false] at hfind
      simp only [h, Bool.false_eq_true, if_false, List.find?]
      exact ih hfind

/-- Decomposition of a whole run around the single turn of one identifier:
with duplicate-free identifiers, every observable of `x` in the final run
state is produced by processing `x` once, from a reachable state `rsA` whose
`x`-observables are still pristine. -/
theorem run_decomp {σ : Type}
    (tools : σ → String → List (String × Value) → List (String × Value) × σ)
    (st : σ) (history0 : List ExecRecord) (steps : List PlanStep) (mr : Nat)
    (hnd : (stepIds steps).Nodup) (x : Nat) (hx : x ∈ stepIds steps) :
    ∃ rsA : RunState σ,
      findStep rsA.steps x = findStep steps x ∧
      stepIds rsA.steps = stepIds steps ∧
      traceFor rsA.trace x = [] ∧
      histFor rsA.history x = histFor history0 x ∧
      pyGet rsA.results x = Option.none ∧
      traceFor (execute_plan tools st history0 steps mr).2.trace x =
        traceFor (process_step tools mr rsA x).trace x ∧
      histFor (execute_plan tools st history0 steps mr).2.history x =
        histFor (process_step tools mr rsA x).history x ∧
      pyGet (execute_plan tools st history0 steps mr).2.results x =
        pyGet (process_step tools mr rsA x).results x ∧
      findStep (execute_plan tools st history0 steps mr).2.steps x =
        findStep (process_step tools mr rsA x).steps x := by
  have hperm := resolve_dependencies_perm steps hnd
  have hxord : x ∈ resolve_dependencies steps := hperm.mem_iff.mpr hx
  have hordnd : (resolve_dependencies steps).Nodup := hperm.nodup_iff.mpr hnd
  obtain ⟨pre, post, hsplit⟩ := List.append_of_mem hxord
  have hxpre : x ∉ pre := by
    have := hsplit ▸ hordnd
    rcases List.nodup_append.mp this with ⟨_, _, hdisj⟩
    intro hc
    exact hdisj hc (List.mem_cons_self _ _)
  have hxpost : x ∉ post := by
    have := hsplit ▸ hordnd
    rcases List.nodup_append.mp this with ⟨_, hnd2, _⟩
    have := List.nodup_cons.mp hnd2
    exact this.1
  have hfinal : (execute_plan tools st history0 steps mr).2 =
      (resolve_dependencies steps).foldl (process_step tools mr)
        ⟨steps, [], [], history0, [], st⟩ := rfl
  rw [hsplit] at hfinal
  rw [List.foldl_append, List.foldl_cons] at hfinal
  set rsA := pre.foldl (process_step tools mr) (⟨steps, [], [], history0, [], st⟩ : RunState σ)
    with hrsA
  obtain ⟨f1, f2, f3, f4⟩ := foldl_frame tools mr pre
    (⟨steps, [], [], history0, [], st⟩ : RunState σ) x hxpre
  obtain ⟨g1, g2, g3, g4⟩ := foldl_frame tools mr post (process_step tools mr rsA x) x hxpost
  refine ⟨rsA, f4, ?_, f1, f2, f3, ?_, ?_, ?_, ?_⟩
  · exact (foldl_stepIds tools mr pre _).trans rfl
  · rw [hfinal]; exact g1
  · rw [hfinal]; exact g2
  · rw [hfinal]; exact g3
  · rw [hfinal]; exact g4

/-- An identifier that is not a step of the plan is never touched by a run. -/
theorem run_absent {σ : Type}
    (tools : σ → String → List (String × Value) → List (String × Value) × σ)
    (st : σ) (history0 : List ExecRecord) (steps : List PlanStep) (mr : Nat)
    (hnd : (stepIds steps).Nodup) (x : Nat) (hx : x ∉ stepIds steps) :
    traceFor (execute_plan tools st history0 steps mr).2.trace x = [] ∧
    histFor (execute_plan tools st history0 steps mr).2.history x = histFor history0 x ∧
    pyGet (execute_plan tools st history0 steps mr).2.results x = Option.none := by
  have hperm := resolve_dependencies_perm steps hnd
  have hxord : x ∉ resolve_dependencies steps := fun hc => hx (hperm.mem_iff.mp hc)
  have hfinal : (execute_plan tools st history0 steps mr).2 =
      (resolve_dependencies steps).foldl (process_step tools mr)
        ⟨steps, [], [], history0, [], st⟩ := rfl
  obtain ⟨f1, f2, f3, _⟩ := foldl_frame tools mr (resolve_dependencies steps)
    (⟨steps, [], [], history0, [], st⟩ : RunState σ) x hxord
  rw [hfinal]
  exact ⟨f1, f2, f3⟩

theorem pyGet_pySet_self {κ α : Type _} [BEq κ] [LawfulBEq κ] (d : List (κ × α)) (k : κ)
    (v : α) : pyGet (pySet d k v) k = Option.some v := by
  unfold pySet
  split
  next hkey =>
    induction d with
    | nil => simp [pyHasKey] at hkey
    | cons p tl ih =>
      simp only [List.map_cons]
      unfold pyGet
      simp only [List.find?]
      by_cases hp : p.1 == k
      · simp [hp]
      · have hkey2 : pyHasKey tl k = true := by
          unfold pyHasKey at hkey ⊢
          simp only [List.any_cons, Bool.or_eq_true] at hkey
          rcases hkey with h | h
          · exact absurd h hp
          · exact h
        have := ih hkey2
        unfold pyGet at this
        simp only [hp, Bool.false_eq_true, if_false, cond_false]
        exact this
  next hkey =>
    unfold pyGet
    rw [List.find?_append]
    have hnone : List.find? (fun p => p.1 == k) d = Option.none := by
      rw [List.find?_eq_none]
      intro p hp
      simp only [Bool.not_eq_true]
      by_contra hc
      simp only [Bool.not_eq_false] at hc
      exact hkey (by unfold pyHasKey; rw [List.any_eq_true]; exact ⟨p, hp, hc⟩)
    rw [hnone]
    simp [List.find?]

theorem attemptsOf_traceFor (trace : List (Nat × String)) (sid : Nat) :
    attemptsOf trace sid =
      ((traceFor trace sid).filter (fun e => e.2 == "in_progress")).length := by
  unfold attemptsOf traceFor
  induction trace with
  | nil => rfl
  | cons e tl ih =>
    simp only [List.filter_cons]
    by_cases h1 : e.1 == sid <;> by_cases h2 : e.2 == "in_progress" <;>
      simp [h1, h2, ih]

theorem dependencies_satisfied_false_of_missing (step : PlanStep)
    (steps' : List PlanStep) {d : Nat} (hd : d ∈ step.dependencies)
    (hmiss : d ∉ stepIds steps') :
    dependencies_satisfied step steps' = false := by
  unfold dependencies_satisfied
  have hisem : step.dependencies.isEmpty = false := by
    cases h : step.dependencies with
    | nil => rw [h] at hd; cases hd
    | cons _ _ => rfl
  rw [hisem]
  simp only [Bool.false_eq_true, if_false]
  rw [List.all_eq_false]
  refine ⟨d, hd, ?_⟩
  have hfind : steps'.find? (fun s => s.step_id == d) = Option.none := by
    rw [List.find?_eq_none]
    intro s hs
    simp only [Bool.not_eq_true, beq_eq_false_iff_ne, ne_eq]
    intro hc
    exact hmiss (hc ▸ List.mem_map_of_mem _ hs)
  rw [hfind]
  simp

/-- C2: a step with a non-empty dependency list whose declared dependency is
missing from the plan, or whose dependency has not completed when the step is
reached, is marked failed with the "Dependencies not satisfied" result and its
tool is never invoked (no attempt, no history record, no tool-state change).
Conjunct (i) settles the statically-missing-dependency case for a whole run;
conjunct (ii) settles the general reached-with-unsatisfied-dependencies case
for the loop iteration that reaches the step. -/
theorem claim_C2 {σ : Type}
    (tools : σ → String → List (String × Value) → List (String × Value) × σ)
    (st : σ) (history0 : List ExecRecord) (steps : List PlanStep) (mr : Nat)
    (hnd : (stepIds steps).Nodup) :
    (∀ s ∈ steps, ∀ d ∈ s.dependencies, d ∉ stepIds steps →
      findStep (execute_plan tools st history0 steps mr).1.steps s.step_id =
        Option.some (setStatus s "failed") ∧
      pyGet (execute_plan tools st history0 steps mr).1.results s.step_id =
        Option.some depFailResult ∧
      attemptsOf (execute_plan tools st history0 steps mr).2.trace s.step_id = 0 ∧
      histFor (execute_plan tools st history0 steps mr).1.execution_history s.step_id =
        histFor history0 s.step_id) ∧
    (∀ (rs : RunState σ) (sid : Nat) (step : PlanStep),
      rs.steps.find? (fun s => s.step_id == sid) = Option.some step →
      dependencies_satisfied step rs.steps = false →
      (process_step tools mr rs sid).toolSt = rs.toolSt ∧
      (process_step tools mr rs sid).history = rs.history ∧
      (process_step tools mr rs sid).trace = rs.trace ++ [(sid, "failed")] ∧
      pyGet (process_step tools mr rs sid).results sid = Option.some depFailResult ∧
      findStep (process_step tools mr rs sid).steps sid =
        Option.some (setStatus step "failed")) := by
  constructor
  · intro s hs d hd hdmiss
    have hx : s.step_id ∈ stepIds steps := List.mem_map_of_mem _ hs
    obtain ⟨rsA, hfindA, hidsA, htraceA, hhistA, hresA, htraceF, hhistF, hresF, hfindF⟩ :=
      run_decomp tools st history0 steps mr hnd s.step_id hx
    have hfindS : findStep steps s.step_id = Option.some s := findStep_of_nodup hnd hs
    have hfind : rsA.steps.find? (fun t => t.step_id == s.step_id) = Option.some s := by
      have := hfindA.trans hfindS
      exact this
    have hdep : dependencies_satisfied s rsA.steps = false :=
      dependencies_satisfied_false_of_missing s rsA.steps hd (by rw [hidsA]; exact hdmiss)
    have hproc := process_step_dep tools mr rsA s.step_id s hfind hdep
    have hsum_steps : (execute_plan tools st history0 steps mr).1.steps =
        (execute_plan tools st history0 steps mr).2.steps := rfl
    have hsum_results : (execute_plan tools st history0 steps mr).1.results =
        (execute_plan tools st history0 steps mr).2.results := rfl
    have hsum_hist : (execute_plan tools st history0 steps mr).1.execution_history =
        (execute_plan tools st history0 steps mr).2.history := rfl
    refine ⟨?_, ?_, ?_, ?_⟩
    · rw [hsum_steps, hfindF, hproc]
      exact findStep_updateStepById_self rsA.steps s.step_id _ s (fun t _ => rfl) hfind
    · rw [hsum_results, hresF, hproc]
      exact pyGet_pySet_self rsA.results s.step_id depFailResult
    · rw [attemptsOf_traceFor, htraceF, hproc]
      simp only [traceFor, List.filter_append, htraceA]
      have : traceFor rsA.trace s.step_id = [] := htraceA
      unfold traceFor at this
      rw [this]
      simp
    · rw [hsum_hist, hhistF, hproc]
      exact hhistA
  · intro rs sid step hfind hdep
    have hproc := process_step_dep tools mr rs sid step hfind hdep
    rw [hproc]
    refine ⟨rfl, rfl, rfl, ?_, ?_⟩
    · exact pyGet_pySet_self rs.results sid depFailResult
    · exact findStep_updateStepById_self rs.steps sid _ step (fun t _ => rfl) hfind

theorem filter_all_true {α : Type _} (l : List α) (p : α → Bool)
    (h : ∀ a ∈ l, p a = true) : l.filter p = l := by
  induction l with
  | nil => rfl
  | cons a tl ih =>
    rw [List.filter_cons, if_pos (h a (List.mem_cons_self a tl))]
    rw [ih (fun b hb => h b (List.mem_cons_of_mem a hb))]

theorem dropLast_map {α β : Type _} (f : α → β) (l : List α) :
    (l.map f).dropLast = l.dropLast.map f := by
  induction l with
  | nil => rfl
  | cons a tl ih =>
    cases tl with
    | nil => rfl
    | cons b tl2 =>
      simp only [List.map_cons, List.dropLast_cons₂]
      rw [← List.map_cons]
      rw [ih]

theorem dependencies_satisfied_of_empty (step : PlanStep) (steps' : List PlanStep)
    (h : step.dependencies = []) : dependencies_satisfied step steps' = true := by
  unfold dependencies_satisfied
  rw [h]
  rfl

theorem findStep_some_of_mem_ids {steps : List PlanStep} {x : Nat}
    (hx : x ∈ stepIds steps) : ∃ s, findStep steps x = Option.some s := by
  cases hfind : findStep steps x with
  | some s => exact ⟨s, rfl⟩
  | none =>
    exfalso
    unfold findStep at hfind
    rw [List.find?_eq_none] at hfind
    rcases List.mem_map.mp hx with ⟨s, hs, hsid⟩
    have := hfind s hs
    simp [hsid] at this

/-- C1: within one execute_plan run, a dependency-free step whose tool fails
on every invocation is attempted exactly `1 + max_retries` times; no step is
ever attempted more than `1 + max_retries` times; and only the last of a
step's attempt outcomes can be a success (retrying stops at the first
successful attempt). -/
theorem claim_C1 {σ : Type}
    (tools : σ → String → List (String × Value) → List (String × Value) × σ)
    (st : σ) (history0 : List ExecRecord) (steps : List PlanStep) (mr : Nat)
    (hnd : (stepIds steps).Nodup) :
    (∀ s ∈ steps, s.dependencies = [] →
      (∀ (s' : σ) (p : List (String × Value)),
        truthy (pyGetD (tools s' s.tool p).1 "success") = false) →
      attemptsOf (execute_plan tools st history0 steps mr).2.trace s.step_id = mr + 1) ∧
    (∀ x : Nat, attemptsOf (execute_plan tools st history0 steps mr).2.trace x ≤ mr + 1) ∧
    (∀ x : Nat,
      ∀ o ∈ (outcomesOf (execute_plan tools st history0 steps mr).2.trace x).dropLast,
      o = "failed") := by
  refine ⟨?_, ?_, ?_⟩
  · intro s hs hdeps hfail
    have hx : s.step_id ∈ stepIds steps := List.mem_map_of_mem _ hs
    obtain ⟨rsA, hfindA, hidsA, htraceA, _, _, htraceF, _, _, _⟩ :=
      run_decomp tools st history0 steps mr hnd s.step_id hx
    have hfind : rsA.steps.find? (fun t => t.step_id == s.step_id) = Option.some s :=
      hfindA.trans (findStep_of_nodup hnd hs)
    have hdep := dependencies_satisfied_of_empty s rsA.steps hdeps
    rcases hrun : run_attempts tools rsA.toolSt s rsA.context (mr + 1)
      with ⟨step', result, ctx2, st2, recs, evs⟩
    have hproc := process_step_exec tools mr rsA s.step_id s step' result ctx2 st2 recs evs
      hfind hdep hrun
    obtain ⟨_, hB, _, _, hE, _, _, _, _, _⟩ :=
      run_attempts_facts tools (mr + 1) rsA.toolSt s rsA.context step' result ctx2 st2
        recs evs (by omega) hrun
    have hcount := run_attempts_all_fail tools (mr + 1) rsA.toolSt s rsA.context step'
      result ctx2 st2 recs evs hfail hrun
    rw [attemptsOf_traceFor, htraceF, hproc]
    simp only [traceFor, List.filter_append]
    have h0 : rsA.trace.filter (fun e => e.1 == s.step_id) = [] := htraceA
    rw [h0]
    simp only [List.filter_nil, List.nil_append]
    have hall : evs.filter (fun e => e.1 == s.step_id) = evs :=
      filter_all_true evs _ (fun e he => by simp [hB e he])
    rw [hall, ← hE, hcount]
  · intro x
    by_cases hx : x ∈ stepIds steps
    · obtain ⟨rsA, hfindA, hidsA, htraceA, _, _, htraceF, _, _, _⟩ :=
        run_decomp tools st history0 steps mr hnd x hx
      obtain ⟨s, hfindS⟩ := findStep_some_of_mem_ids hx
      have hfind : rsA.steps.find? (fun t => t.step_id == x) = Option.some s :=
        hfindA.trans hfindS
      have hsid : s.step_id = x := (findStep_mem hfindS).2
      by_cases hdep : dependencies_satisfied s rsA.steps
      · rcases hrun : run_attempts tools rsA.toolSt s rsA.context (mr + 1)
          with ⟨step', result, ctx2, st2, recs, evs⟩
        have hproc := process_step_exec tools mr rsA x s step' result ctx2 st2 recs evs
          hfind hdep hrun
        obtain ⟨_, hB, _, hD, hE, _, _, _, _, _⟩ :=
          run_attempts_facts tools (mr + 1) rsA.toolSt s rsA.context step' result ctx2 st2
            recs evs (by omega) hrun
        rw [attemptsOf_traceFor, htraceF, hproc]
        simp only [traceFor, List.filter_append]
        have h0 : rsA.trace.filter (fun e => e.1 == x) = [] := htraceA
        rw [h0]
        simp only [List.filter_nil, List.nil_append]
        have hall : evs.filter (fun e => e.1 == x) = evs :=
          filter_all_true evs _ (fun e he => by simp [hB e he, hsid])
        rw [hall]
        have hle : (evs.filter (fun e => e.2 == "in_progress")).length ≤ mr + 1 := by
          rw [← hE]; exact hD
        exact hle
      · have hproc := process_step_dep tools mr rsA x s hfind (by simpa using hdep)
        rw [attemptsOf_traceFor, htraceF, hproc]
        simp only [traceFor, List.filter_append]
        have h0 : rsA.trace.filter (fun e => e.1 == x) = [] := htraceA
        rw [h0]
        simp only [List.filter_nil, List.nil_append]
        simp
    · obtain ⟨f1, _, _⟩ := run_absent tools st history0 steps mr hnd x hx
      rw [attemptsOf_traceFor, f1]
      simp
  · intro x o ho
    by_cases hx : x ∈ stepIds steps
    · obtain ⟨rsA, hfindA, hidsA, htraceA, _, _, htraceF, _, _, _⟩ :=
        run_decomp tools st history0 steps mr hnd x hx
      obtain ⟨s, hfindS⟩ := findStep_some_of_mem_ids hx
      have hfind : rsA.steps.find? (fun t => t.step_id == x) = Option.some s :=
        hfindA.trans hfindS
      have hsid : s.step_id = x := (findStep_mem hfindS).2
      by_cases hdep : dependencies_satisfied s rsA.steps
      · rcases hrun : run_attempts tools rsA.toolSt s rsA.context (mr + 1)
          with ⟨step', result, ctx2, st2, recs, evs⟩
        have hproc := process_step_exec tools mr rsA x s step' result ctx2 st2 recs evs
          hfind hdep hrun
        obtain ⟨_, hB, _, _, _, _, hG, hH, _, _⟩ :=
          run_attempts_facts tools (mr + 1) rsA.toolSt s rsA.context step' result ctx2 st2
            recs evs (by omega) hrun
        unfold outcomesOf at ho
        rw [htraceF, hproc] at ho
        simp only [traceFor, List.filter_append] at ho
        have h0 : rsA.trace.filter (fun e => e.1 == x) = [] := htraceA
        rw [h0] at ho
        simp only [List.filter_nil, List.nil_append] at ho
        have hall : evs.filter (fun e => e.1 == x) = evs :=
          filter_all_true evs _ (fun e he => by simp [hB e he, hsid])
        rw [hall, hH, dropLast_map] at ho
        rcases List.mem_map.mp ho with ⟨r, hr, hro⟩
        rw [← hro]
        exact hG r hr
      · have hproc := process_step_dep tools mr rsA x s hfind (by simpa using hdep)
        unfold outcomesOf at ho
        rw [htraceF, hproc] at ho
        simp only [traceFor, List.filter_append] at ho
        have h0 : rsA.trace.filter (fun e => e.1 == x) = [] := htraceA
        rw [h0] at ho
        simp only [List.filter_nil, List.nil_append] at ho
        simp at ho
    · obtain ⟨f1, _, _⟩ := run_absent tools st history0 steps mr hnd x hx
      unfold outcomesOf at ho
      rw [f1] at ho
      simp at ho

/-- C8 (amended): within one execution pass the statuses a step goes through,
starting from the pending state of a freshly planned step, follow only the
transitions pending to in_progress, in_progress to completed or failed,
pending to failed (dependency gating), and failed to in_progress (start of a
retry); in particular no step ever leaves the completed state. -/
theorem claim_C8_amended {σ : Type}
    (tools : σ → String → List (String × Value) → List (String × Value) × σ)
    (st : σ) (history0 : List ExecRecord) (steps : List PlanStep) (mr : Nat)
    (hnd : (stepIds steps).Nodup) (x : Nat) :
    List.Chain' (fun a b => codeTransition a b = true)
      (statusesOf (execute_plan tools st history0 steps mr).2.trace x) := by
  unfold statusesOf
  by_cases hx : x ∈ stepIds steps
  · obtain ⟨rsA, hfindA, hidsA, htraceA, _, _, htraceF, _, _, _⟩ :=
      run_decomp tools st history0 steps mr hnd x hx
    obtain ⟨s, hfindS⟩ := findStep_some_of_mem_ids hx
    have hfind : rsA.steps.find? (fun t => t.step_id == x) = Option.some s :=
      hfindA.trans hfindS
    have hsid : s.step_id = x := (findStep_mem hfindS).2
    by_cases hdep : dependencies_satisfied s rsA.steps
    · rcases hrun : run_attempts tools rsA.toolSt s rsA.context (mr + 1)
        with ⟨step', result, ctx2, st2, recs, evs⟩
      have hproc := process_step_exec tools mr rsA x s step' result ctx2 st2 recs evs
        hfind hdep hrun
      obtain ⟨_, hB, _, _, _, _, _, _, _, hJ⟩ :=
        run_attempts_facts tools (mr + 1) rsA.toolSt s rsA.context step' result ctx2 st2
          recs evs (by omega) hrun
      rw [htraceF, hproc]
      simp only [traceFor, List.filter_append]
      have h0 : rsA.trace.filter (fun e => e.1 == x) = [] := htraceA
      rw [h0, List.nil_append]
      have hall : evs.filter (fun e => e.1 == x) = evs :=
        filter_all_true evs _ (fun e he => by simp [hB e he, hsid])
      rw [hall]
      exact hJ
    · have hproc := process_step_dep tools mr rsA x s hfind (by simpa using hdep)
      rw [htraceF, hproc]
      simp only [traceFor, List.filter_append]
      have h0 : rsA.trace.filter (fun e => e.1 == x) = [] := htraceA
      rw [h0, List.nil_append]
      simp [codeTransition, claimTransition]
  · obtain ⟨f1, _, _⟩ := run_absent tools st history0 steps mr hnd x hx
    rw [f1]
    simp

/-- C4: for every plan with duplicate-free step identifiers, cycles included,
the computed execution order contains each step identifier exactly once (it is
a permutation of the plan's identifiers), and by construction it is the Kahn
order followed by the steps that never reached in-degree zero, kept in their
original relative order rather than dropped.  Termination of execute_plan is
by construction: the embedding is a total function. -/
theorem claim_C4 (steps : List PlanStep) (hnd : (stepIds steps).Nodup) :
    List.Perm (resolve_dependencies steps) (stepIds steps) ∧
    resolve_dependencies steps =
      kahnOrderOf steps ++
        (steps.filter (fun s => !(kahnOrderOf steps).contains s.step_id)).map (·.step_id) :=
  ⟨resolve_dependencies_perm steps hnd, rfl⟩

/-- C3 (amended): for every plan with duplicate-free step identifiers and
duplicate-free dependency lists whose in-plan dependency relation is acyclic
(well-founded), the computed order is topological: every in-plan dependency
of a step appears strictly before the step.  (Without the duplicate-free
dependency-list assumption the claim fails; see the counterexample.) -/
theorem claim_C3_amended (steps : List PlanStep) (hnd : (stepIds steps).Nodup)
    (hdeps : ∀ s ∈ steps, s.dependencies.Nodup)
    (hwf : WellFounded (depRel steps)) :
    ∀ s ∈ steps, ∀ d ∈ s.dependencies, d ∈ stepIds steps →
      (resolve_dependencies steps).indexOf d <
        (resolve_dependencies steps).indexOf s.step_id :=
  resolve_dependencies_topological steps hnd hdeps hwf

theorem process_step_history_prefix {σ : Type}
    (tools : σ → String → List (String × Value) → List (String × Value) × σ)
    (mr : Nat) (rs : RunState σ) (sid : Nat) :
    ∃ new, (process_step tools mr rs sid).history = rs.history ++ new := by
  rcases hfind : rs.steps.find? (fun s => s.step_id == sid) with _ | step
  · rw [process_step_none tools mr rs sid hfind]
    exact ⟨[], by simp⟩
  · by_cases hdep : dependencies_satisfied step rs.steps
    · rcases hrun : run_attempts tools rs.toolSt step rs.context (mr + 1)
        with ⟨step', result, ctx2, st2, recs, evs⟩
      rw [process_step_exec tools mr rs sid step step' result ctx2 st2 recs evs
        hfind hdep hrun]
      exact ⟨recs, rfl⟩
    · rw [process_step_dep tools mr rs sid step hfind (by simpa using hdep)]
      exact ⟨[], by simp⟩

theorem foldl_history_prefix {σ : Type}
    (tools : σ → String → List (String × Value) → List (String × Value) × σ)
    (mr : Nat) (L : List Nat) (rs : RunState σ) :
    ∃ D, (L.foldl (process_step tools mr) rs).history = rs.history ++ D := by
  induction L generalizing rs with
  | nil => exact ⟨[], by simp⟩
  | cons sid tl ih =>
    obtain ⟨n1, h1⟩ := process_step_history_prefix tools mr rs sid
    obtain ⟨n2, h2⟩ := ih (process_step tools mr rs sid)
    refine ⟨n1 ++ n2, ?_⟩
    rw [List.foldl_cons, h2, h1, List.append_assoc]

/-- C9 (amended): the execution history carried by the summary is the
executor's whole accumulated history: the history present at call time
followed by the fresh records of this run.  The fresh part has exactly one
record per attempted tool invocation of this run (a step retried twice yields
up to three records, a dependency-skipped step none), and every fresh record
carries the identifier and tool of a plan step and a terminal attempt status.
The original claim fails because the records of earlier runs of the same
Executor are also contained in the summary; see the counterexample. -/
theorem claim_C9_amended {σ : Type}
    (tools : σ → String → List (String × Value) → List (String × Value) × σ)
    (st : σ) (history0 : List ExecRecord) (steps : List PlanStep) (mr : Nat)
    (hnd : (stepIds steps).Nodup) :
    ∃ fresh : List ExecRecord,
      (execute_plan tools st history0 steps mr).1.execution_history = history0 ++ fresh ∧
      (∀ r ∈ fresh, ∃ s ∈ steps, r.step_id = s.step_id ∧ r.tool = s.tool ∧
        (r.status = "completed" ∨ r.status = "failed")) ∧
      (∀ x : Nat, (histFor fresh x).length =
        attemptsOf (execute_plan tools st history0 steps mr).2.trace x) := by
  obtain ⟨D, hD⟩ := foldl_history_prefix tools mr (resolve_dependencies steps)
    (⟨steps, [], [], history0, [], st⟩ : RunState σ)
  have hhist : (execute_plan tools st history0 steps mr).2.history = history0 ++ D := hD
  have hsplitD : ∀ x : Nat,
      histFor (execute_plan tools st history0 steps mr).2.history x =
        histFor history0 x ++ histFor D x := by
    intro x
    rw [hhist]
    unfold histFor
    rw [List.filter_append]
  have key : ∀ x : Nat,
      (histFor D x).length =
        attemptsOf (execute_plan tools st history0 steps mr).2.trace x ∧
      (∀ r ∈ histFor D x, ∃ s ∈ steps, r.step_id = s.step_id ∧ r.tool = s.tool ∧
        (r.status = "completed" ∨ r.status = "failed")) := by
    intro x
    by_cases hx : x ∈ stepIds steps
    · obtain ⟨rsA, hfindA, hidsA, htraceA, hhistA, _, htraceF, hhistF, _, _⟩ :=
        run_decomp tools st history0 steps mr hnd x hx
      obtain ⟨s, hfindS⟩ := findStep_some_of_mem_ids hx
      have hfind : rsA.steps.find? (fun t => t.step_id == x) = Option.some s :=
        hfindA.trans hfindS
      have hsid : s.step_id = x := (findStep_mem hfindS).2
      have hsmem : s ∈ steps := (findStep_mem hfindS).1
      by_cases hdep : dependencies_satisfied s rsA.steps
      · rcases hrun : run_attempts tools rsA.toolSt s rsA.context (mr + 1)
          with ⟨step', result, ctx2, st2, recs, evs⟩
        have hproc := process_step_exec tools mr rsA x s step' result ctx2 st2 recs evs
          hfind hdep hrun
        obtain ⟨_, hB, _, _, hE, hF, _, _, _, _⟩ :=
          run_attempts_facts tools (mr + 1) rsA.toolSt s rsA.context step' result ctx2 st2
            recs evs (by omega) hrun
        have hrecsAll : recs.filter (fun r => r.step_id == x) = recs :=
          filter_all_true recs _ (fun r hr => by simp [(hF r hr).1, hsid])
        have hDrecs : histFor D x = recs := by
          have h1 : histFor (execute_plan tools st history0 steps mr).2.history x =
              histFor history0 x ++ recs := by
            rw [hhistF, hproc]
            unfold histFor
            rw [List.filter_append]
            rw [show rsA.history.filter (fun r => r.step_id == x) = histFor history0 x from hhistA]
            rw [hrecsAll]
            rfl
          rw [hsplitD x] at h1
          exact List.append_cancel_left h1
        constructor
        · rw [hDrecs, attemptsOf_traceFor, htraceF, hproc]
          simp only [traceFor, List.filter_append]
          have h0 : rsA.trace.filter (fun e => e.1 == x) = [] := htraceA
          rw [h0]
          simp only [List.filter_nil, List.nil_append]
          have hall : evs.filter (fun e => e.1 == x) = evs :=
            filter_all_true evs _ (fun e he => by simp [hB e he, hsid])
          rw [hall, ← hE]
        · intro r hr
          rw [hDrecs] at hr
          exact ⟨s, hsmem, (hF r hr).1, (hF r hr).2.1, (hF r hr).2.2⟩
      · have hproc := process_step_dep tools mr rsA x s hfind (by simpa using hdep)
        have hDnil : histFor D x = [] := by
          have h1 : histFor (execute_plan tools st history0 steps mr).2.history x =
              histFor history0 x ++ [] := by
            rw [hhistF, hproc]
            simp only [List.append_nil]
            exact hhistA
          rw [hsplitD x] at h1
          exact List.append_cancel_left h1
        constructor
        · rw [hDnil, attemptsOf_traceFor, htraceF, hproc]
          simp only [traceFor, List.filter_append]
          have h0 : rsA.trace.filter (fun e => e.1 == x) = [] := htraceA
          rw [h0]
          simp
        · intro r hr
          rw [hDnil] at hr
          cases hr
    · obtain ⟨f1, f2, _⟩ := run_absent tools st history0 steps mr hnd x hx
      have hDnil : histFor D x = [] := by
        have h1 : histFor (execute_plan tools st history0 steps mr).2.history x =
            histFor history0 x ++ [] := by
          rw [List.append_nil]
          exact f2
        rw [hsplitD x] at h1
        exact List.append_cancel_left h1
      constructor
      · rw [hDnil, attemptsOf_traceFor, f1]
        simp
      · intro r hr
        rw [hDnil] at hr
        cases hr
  refine ⟨D, hD, ?_, fun x => (key x).1⟩
  intro r hr
  have hrin : r ∈ histFor D r.step_id := by
    unfold histFor
    rw [List.mem_filter]
    exact ⟨hr, by simp⟩
  exact (key r.step_id).2 r hrin

/-- C3, counterexample to the original claim: dupDepPlan has distinct step
identifiers and an acyclic (well-founded) in-plan dependency relation, yet the
computed order [2, 0, 1] places step 0 before its in-plan dependency 1.  The
in-degree of a step counts a duplicated dependency declaration twice, while
processing the finished dependency decrements it only once, so step 1 never
reaches in-degree zero and is appended after the steps that depend on it. -/
theorem claim_C3_counterexample :
    (stepIds dupDepPlan).Nodup ∧ WellFounded (depRel dupDepPlan) ∧
    ∃ s ∈ dupDepPlan, ∃ d ∈ s.dependencies, d ∈ stepIds dupDepPlan ∧
      ¬((resolve_dependencies dupDepPlan).indexOf d <
        (resolve_dependencies dupDepPlan).indexOf s.step_id) := by
  have heval : resolve_dependencies dupDepPlan = [2, 0, 1] := by
    simp [dupDepPlan, resolve_dependencies, kahnOrderOf, graphOf, initEntries,
      kahnLoop, decEntries, newlyReady, pySet, pyHasKey, PlanStep.mk0]
  have hwf : WellFounded (depRel dupDepPlan) := by
    have hsub : ∀ d v : Nat, depRel dupDepPlan d v → 3 - d < 3 - v := by
      intro d v hdv
      obtain ⟨s, hs, hsid, hdin, hdid⟩ := hdv
      simp only [dupDepPlan, List.mem_cons, List.not_mem_nil, or_false] at hs
      rcases hs with h | h | h
      · subst h
        simp only [PlanStep.mk0] at hsid hdin
        simp only [List.mem_singleton] at hdin
        omega
      · subst h
        simp only [PlanStep.mk0] at hsid hdin
        simp only [List.mem_cons, List.not_mem_nil, or_false, or_self] at hdin
        omega
      · subst h
        simp only [PlanStep.mk0] at hdin
        simp at hdin
    exact Subrelation.wf (fun h => hsub _ _ h)
      (InvImage.wf (fun n => 3 - n) Nat.lt_wfRel.wf)
  refine ⟨by decide, hwf, PlanStep.mk0 0 "a" "t" [] [1], ?_, 1, ?_, by decide, ?_⟩
  · simp [dupDepPlan]
  · simp [PlanStep.mk0]
  · rw [heval]
    decide

theorem pyGet_setIf_ne {κ α : Type _} [BEq κ] [LawfulBEq κ] (b : Bool) (d : List (κ × α))
    (k2 : κ) (v : α) (k : κ) (hne : k ≠ k2) :
    pyGet (if b then pySet d k2 v else d) k = pyGet d k := by
  cases b
  · rfl
  · exact pyGet_pySet_ne d k2 k v hne

/-- C5 (amended): context extraction is gated on the attempt's success.  When
the result of an attempt is success-falsy, _extract_context yields the empty
fragment, so the merge performed before a retry leaves the running context
unchanged — a retry cannot observe via context why the previous attempt
failed.  Only when the result is success-truthy is each present well-known
field copied into the fragment under the corresponding well-known key.  The
original claim's failed-attempt half is refuted by the counterexample. -/
theorem claim_C5_amended (result : List (String × Value)) :
    (truthy (pyGetD result "success") = false →
      extract_context result = [] ∧
      ∀ ctx : List (String × Value), pyUpdate ctx (extract_context result) = ctx) ∧
    (truthy (pyGetD result "success") = true →
      (pyHasKey result "content" = true →
        pyGet (extract_context result) "content" = Option.some (pyGetD result "content")) ∧
      (pyHasKey result "file_path" = true →
        pyGet (extract_context result) "file_path" =
          Option.some (pyGetD result "file_path")) ∧
      (pyHasKey result "response" = true →
        pyGet (extract_context result) "api_response" =
          Option.some (pyGetD result "response")) ∧
      (pyHasKey result "results" = true →
        pyGet (extract_context result) "search_results" =
          Option.some (pyGetD result "results")) ∧
      (pyHasKey result "result" = true →
        pyGet (extract_context result) "calculation_result" =
          Option.some (pyGetD result "result"))) := by
  constructor
  · intro hf
    have he : extract_context result = [] := by
      unfold extract_context
      rw [hf]
      simp
    exact ⟨he, fun ctx => by rw [he]; rfl⟩
  · intro ht
    have hu : extract_context result =
        (let c0 : List (String × Value) := []
         let c1 := if pyHasKey result "content" then
           pySet c0 "content" (pyGetD result "content") else c0
         let c2 := if pyHasKey result "file_path" then
           pySet c1 "file_path" (pyGetD result "file_path") else c1
         let c3 := if pyHasKey result "response" then
           pySet c2 "api_response" (pyGetD result "response") else c2
         let c4 := if pyHasKey result "results" then
           pySet c3 "search_results" (pyGetD result "results") else c3
         if pyHasKey result "result" then
           pySet c4 "calculation_result" (pyGetD result "result") else c4) := by
      unfold extract_context
      rw [ht]
      simp
    refine ⟨?_, ?_, ?_, ?_, ?_⟩ <;> intro hk <;> rw [hu] <;> simp only []
    · rw [pyGet_setIf_ne _ _ _ _ _ (by decide), pyGet_setIf_ne _ _ _ _ _ (by decide),
        pyGet_setIf_ne _ _ _ _ _ (by decide), pyGet_setIf_ne _ _ _ _ _ (by decide),
        if_pos hk]
      exact pyGet_pySet_self _ _ _
    · rw [pyGet_setIf_ne _ _ _ _ _ (by decide), pyGet_setIf_ne _ _ _ _ _ (by decide),
        pyGet_setIf_ne _ _ _ _ _ (by decide), if_pos hk]
      exact pyGet_pySet_self _ _ _
    · rw [pyGet_setIf_ne _ _ _ _ _ (by decide), pyGet_setIf_ne _ _ _ _ _ (by decide),
        if_pos hk]
      exact pyGet_pySet_self _ _ _
    · rw [pyGet_setIf_ne _ _ _ _ _ (by decide), if_pos hk]
      exact pyGet_pySet_self _ _ _
    · rw [if_pos hk]
      exact pyGet_pySet_self _ _ _

theorem claim_C5_amended_witness :
    extract_context failedContentResult = [] ∧
    pyGet (extract_context [("success", Value.bool true), ("content", Value.str "ok")])
        "content" =
      Option.some (pyGetD [("success", Value.bool true), ("content", Value.str "ok")]
        "content") :=
  ⟨((claim_C5_amended failedContentResult).1 rfl).1,
    ((claim_C5_amended [("success", Value.bool true), ("content", Value.str "ok")]).2
      rfl).1 rfl⟩

/-- C5, counterexample to the original claim: a failed attempt's result
carrying the well-known field "content" contributes nothing to the context.
The extracted fragment is empty, the merge before the retry leaves the
context unchanged, and in a concrete retried run the context the retry loop
carries stays empty even though the first attempt failed with a "content"
field. -/
theorem claim_C5_counterexample :
    pyHasKey failedContentResult "content" = true ∧
    truthy (pyGetD failedContentResult "success") = false ∧
    extract_context failedContentResult = [] ∧
    pyUpdate [("k", Value.int 1)] (extract_context failedContentResult) =
      [("k", Value.int 1)] ∧
    (execute_step toolsFailThenOk 0 (PlanStep.mk0 0 "a" "t" [] []) []).2.1 =
      failedContentResult ∧
    (run_attempts toolsFailThenOk 0 (PlanStep.mk0 0 "a" "t" [] []) [] 2).2.2.1 = [] :=
  ⟨rfl, rfl, rfl, rfl, rfl, rfl⟩

/-- C6: when an iteration's execution summary reports at least one failed
step and adjust_plan returns a sequence of the same length as its input, the
orchestration loop terminates on that same iteration: the outcome carries
that summary as the final result, and exactly one plan call and one
execute_plan call were made in total — no further planning, no further
execution. -/
theorem claim_C6 {σ : Type}
    (tools : σ → String → List (String × Value) → List (String × Value) × σ)
    (planF : List (String × Value) → List PlanStep) (budget iteration : Nat)
    (ctx : List (String × Value)) (history : List ExecRecord) (st : σ)
    (hne : (planF ctx).isEmpty = false)
    (hfail : 0 < (execute_plan tools st history (planF ctx) 2).1.failed)
    (hstall : (adjust_plan (execute_plan tools st history (planF ctx) 2).2.steps
        (execute_plan tools st history (planF ctx) 2).1.results).length =
      (execute_plan tools st history (planF ctx) 2).2.steps.length) :
    agent_loop tools planF (budget + 1) iteration ctx history st =
      (⟨false, iteration + 1, Option.some (execute_plan tools st history (planF ctx) 2).1,
        Option.none,
        update_context ctx (execute_plan tools st history (planF ctx) 2).1⟩, 1, 1) := by
  rcases hexec : execute_plan tools st history (planF ctx) 2 with ⟨summary, rs⟩
  rw [hexec] at hfail hstall
  simp only at hfail hstall
  have hsucc : summary.success = false := by
    have h1 : (execute_plan tools st history (planF ctx) 2).1.success =
        ((execute_plan tools st history (planF ctx) 2).1.failed == 0) := rfl
    rw [hexec] at h1
    simp only at h1
    rw [h1]
    simp only [beq_eq_false_iff_ne, ne_eq]
    omega
  show agent_loop tools planF (Nat.succ budget) iteration ctx history st = _
  simp only [agent_loop, hne, Bool.false_eq_true, if_false, hexec]
  simp only [hsucc, Bool.false_eq_true, if_false, if_pos hfail]
  rw [if_pos (by simp [hstall])]


theorem claim_C6_witness :
    agent_loop toolsAlwaysFail (fun _ => oneStepPlan) 1 0 [] [] 0 =
      (⟨false, 1, Option.some (execute_plan toolsAlwaysFail 0 [] oneStepPlan 2).1,
        Option.none, update_context [] (execute_plan toolsAlwaysFail 0 [] oneStepPlan 2).1⟩,
        1, 1) :=
  claim_C6 toolsAlwaysFail (fun _ => oneStepPlan) 0 0 [] [] 0 rfl
    (by simp [execute_plan, oneStepPlan, resolve_dependencies, kahnOrderOf, graphOf,
      initEntries, kahnLoop, decEntries, newlyReady, pySet, pyHasKey, PlanStep.mk0,
      process_step, dependencies_satisfied, run_attempts, execute_step, resolve_parameters,
      toolsAlwaysFail, pyGetD, pyGet, truthy, extract_context, pyUpdate, updateStepById,
      setStatus, generate_summary, depFailResult, findStep])
    (by simp [execute_plan, oneStepPlan, resolve_dependencies, kahnOrderOf, graphOf,
      initEntries, kahnLoop, decEntries, newlyReady, pySet, pyHasKey, PlanStep.mk0,
      process_step, dependencies_satisfied, run_attempts, execute_step, resolve_parameters,
      toolsAlwaysFail, pyGetD, pyGet, truthy, extract_context, pyUpdate, updateStepById,
      setStatus, generate_summary, depFailResult, findStep, adjust_plan])

/-- C7, evidence for the code bug refuting the claim: on the task
"after  that" (two spaces) every pattern guard of Planner.plan is false, so
no step is created before the multi-step check; the multi-step test fires
(its "after that" regex allows any whitespace gap) and the numbered-list
branch does not; but the keyword split of _decompose_multi_step matches only
the literal "after that", so it returns the whole task as its single part,
whose strip is the task itself, and plan recurses on exactly the same
arguments, never returning.  Planner.plan is therefore not total, against the
claim that it always returns a non-empty sequence. -/
theorem claim_C7 :
    matches_pattern "after  that" ["write", "save", "create file", "store"] = false ∧
    matches_pattern "after  that" ["read", "load"] = false ∧
    matches_pattern "after  that" ["list", "directory", "folder", "files"] = false ∧
    matches_pattern "after  that" ["api", "http", "request", "call", "fetch", "get data"]
      = false ∧
    matches_pattern "after  that" ["search", "find", "lookup", "information about"]
      = false ∧
    matches_pattern "after  that" ["calculate", "compute", "math", "add", "multiply"]
      = false ∧
    is_multi_step_task "after  that" = true ∧
    searchDigitDot ("after  that".data.map Char.toLower) = false ∧
    split_keywords "after  that" = ["after  that"] ∧
    pyStrip "after  that" = "after  that" := by
  refine ⟨by decide, by decide, by decide, by decide, by decide, by decide, by decide,
    by decide, ?_, by decide⟩
  simp [split_keywords, split_keywords_go, lowerPrefix]

/-- C8, counterexample to the original claim: with a tool that fails once and
then succeeds, the single step of the plan goes through pending, in_progress,
failed, in_progress, completed within one pass — the failed-to-in_progress
re-entry at the start of a retry is not among the transitions the claim
allows. -/
theorem claim_C8_counterexample :
    statusesOf (execute_plan toolsFailThenOk 0 [] oneStepPlan 2).2.trace 0 =
      ["pending", "in_progress", "failed", "in_progress", "completed"] ∧
    ¬ List.Chain' (fun a b => claimTransition a b = true)
      (statusesOf (execute_plan toolsFailThenOk 0 [] oneStepPlan 2).2.trace 0) := by
  have heval : (execute_plan toolsFailThenOk 0 [] oneStepPlan 2).2.trace =
      [(0, "in_progress"), (0, "failed"), (0, "in_progress"), (0, "completed")] := by
    simp [execute_plan, oneStepPlan, resolve_dependencies, kahnOrderOf, graphOf,
      initEntries, kahnLoop, decEntries, newlyReady, pySet, pyHasKey, PlanStep.mk0,
      process_step, dependencies_satisfied, run_attempts, execute_step, resolve_parameters,
      toolsFailThenOk, pyGetD, pyGet, truthy, extract_context, pyUpdate, updateStepById,
      setStatus, generate_summary, depFailResult, findStep]
  have h2 : statusesOf (execute_plan toolsFailThenOk 0 [] oneStepPlan 2).2.trace 0 =
      ["pending", "in_progress", "failed", "in_progress", "completed"] := by
    unfold statusesOf traceFor
    rw [heval]
    rfl
  refine ⟨h2, ?_⟩
  rw [h2]
  simp [List.chain'_cons, claimTransition]

/-- C9, counterexample to the original claim: the Executor's
execution_history is an instance attribute that is never cleared, and the
summary carries the whole of it.  Running the same one-step plan twice on one
Executor (threading history and tool state between the runs, as
AgenticAI.execute does) yields a second summary whose history holds two
records although the second run made exactly one attempt. -/
theorem claim_C9_counterexample :
    attemptsOf (execute_plan toolsAlwaysOk
        ((execute_plan toolsAlwaysOk 0 [] oneStepPlan 2).2.toolSt)
        ((execute_plan toolsAlwaysOk 0 [] oneStepPlan 2).2.history)
        oneStepPlan 2).2.trace 0 = 1 ∧
    ((execute_plan toolsAlwaysOk
        ((execute_plan toolsAlwaysOk 0 [] oneStepPlan 2).2.toolSt)
        ((execute_plan toolsAlwaysOk 0 [] oneStepPlan 2).2.history)
        oneStepPlan 2).1.execution_history).length = 2 := by
  constructor <;>
    simp [execute_plan, oneStepPlan, resolve_dependencies, kahnOrderOf, graphOf,
      initEntries, kahnLoop, decEntries, newlyReady, pySet, pyHasKey, PlanStep.mk0,
      process_step, dependencies_satisfied, run_attempts, execute_step, resolve_parameters,
      toolsAlwaysOk, pyGetD, pyGet, truthy, extract_context, pyUpdate, updateStepById,
      setStatus, generate_summary, depFailResult, findStep, attemptsOf]

/-- C10: parameter resolution treats a string value as a whole-value
reference exactly when it starts with the two characters "$\x7b" and ends
with "\x7d"; the whole slice between that prefix and the final character is
then one dot-separated lookup path.  A string of that shape containing
several references is resolved as one lookup of a path spanning them (which
yields Python None when no such context entry exists, see the witness), and a
string of any other shape without "\x7b\x7b" passes through unchanged. -/
theorem claim_C10 (k s : String) (ctx : List (String × Value)) :
    (("$\x7b".data.isPrefixOf s.data && "\x7d".data.isSuffixOf s.data) = true →
      resolve_parameters [(k, Value.str s)] ctx =
        [(k, get_context_value (String.mk ((s.data.drop 2).dropLast)) ctx)]) ∧
    (("$\x7b".data.isPrefixOf s.data && "\x7d".data.isSuffixOf s.data) = false →
      containsSub "\x7b\x7b".data s.data = false →
      resolve_parameters [(k, Value.str s)] ctx = [(k, Value.str s)]) := by
  constructor
  · intro h
    unfold resolve_parameters
    simp only [List.map_cons, List.map_nil]
    rw [if_pos h]
  · intro h1 h2
    unfold resolve_parameters
    simp only [List.map_cons, List.map_nil]
    rw [if_neg (by simp [h1]), if_neg (by simp [h2])]

theorem claim_C10_witness :
    resolve_parameters [("k", Value.str "$\x7ba\x7d and $\x7bb\x7d")]
        [("a", Value.str "x"), ("b", Value.str "y")] =
      [("k", get_context_value "a\x7d and $\x7bb"
        [("a", Value.str "x"), ("b", Value.str "y")])] ∧
    get_context_value "a\x7d and $\x7bb" [("a", Value.str "x"), ("b", Value.str "y")] =
      Value.none ∧
    resolve_parameters [("k", Value.str "plain")] [] = [("k", Value.str "plain")] := by
  refine ⟨?_, rfl, ?_⟩
  · have h := (claim_C10 "k" "$\x7ba\x7d and $\x7bb\x7d"
      [("a", Value.str "x"), ("b", Value.str "y")]).1 (by decide)
    rw [h]
    have hs : String.mk (("$\x7ba\x7d and $\x7bb\x7d".data.drop 2).dropLast) =
        "a\x7d and $\x7bb" := by decide
    rw [hs]
  · exact (claim_C10 "k" "plain" []).2 (by decide) (by decide)

theorem claim_C1_witness :
    attemptsOf (execute_plan toolsAlwaysFail 0 [] oneStepPlan 2).2.trace 0 = 2 + 1 :=
  (claim_C1 toolsAlwaysFail 0 [] oneStepPlan 2 (by decide)).1
    (PlanStep.mk0 0 "a" "t" [] []) (by simp [oneStepPlan]) rfl (fun s p => rfl)

theorem claim_C2_witness :
    findStep (execute_plan toolsAlwaysOk 0 [] [PlanStep.mk0 0 "a" "t" [] [5]] 2).1.steps 0 =
      Option.some (setStatus (PlanStep.mk0 0 "a" "t" [] [5]) "failed") ∧
    pyGet (execute_plan toolsAlwaysOk 0 [] [PlanStep.mk0 0 "a" "t" [] [5]] 2).1.results 0 =
      Option.some depFailResult ∧
    attemptsOf (execute_plan toolsAlwaysOk 0 [] [PlanStep.mk0 0 "a" "t" [] [5]] 2).2.trace 0
      = 0 ∧
    histFor (execute_plan toolsAlwaysOk 0 []
        [PlanStep.mk0 0 "a" "t" [] [5]] 2).1.execution_history 0 = histFor [] 0 :=
  (claim_C2 toolsAlwaysOk 0 [] [PlanStep.mk0 0 "a" "t" [] [5]] 2 (by decide)).1
    (PlanStep.mk0 0 "a" "t" [] [5]) (by simp) 5 (by simp [PlanStep.mk0]) (by decide)

theorem claim_C3_amended_witness :
    (resolve_dependencies
        [PlanStep.mk0 0 "a" "t" [] [1], PlanStep.mk0 1 "b" "t" [] []]).indexOf 1 <
      (resolve_dependencies
        [PlanStep.mk0 0 "a" "t" [] [1], PlanStep.mk0 1 "b" "t" [] []]).indexOf 0 := by
  have hwf : WellFounded
      (depRel [PlanStep.mk0 0 "a" "t" [] [1], PlanStep.mk0 1 "b" "t" [] []]) := by
    have hsub : ∀ d v : Nat,
        depRel [PlanStep.mk0 0 "a" "t" [] [1], PlanStep.mk0 1 "b" "t" [] []] d v →
        2 - d < 2 - v := by
      intro d v hdv
      obtain ⟨s, hs, hsid, hdin, hdid⟩ := hdv
      simp only [List.mem_cons, List.not_mem_nil, or_false] at hs
      rcases hs with h | h
      · subst h
        simp only [PlanStep.mk0] at hsid hdin
        simp only [List.mem_singleton] at hdin
        omega
      · subst h
        simp only [PlanStep.mk0] at hdin
        simp at hdin
    exact Subrelation.wf (fun h => hsub _ _ h)
      (InvImage.wf (fun n => 2 - n) Nat.lt_wfRel.wf)
  exact claim_C3_amended _ (by decide) (by decide) hwf (PlanStep.mk0 0 "a" "t" [] [1])
    (by simp) 1 (by simp [PlanStep.mk0]) (by decide)

theorem claim_C4_witness :
    List.Perm (resolve_dependencies dupDepPlan) (stepIds dupDepPlan) ∧
    resolve_dependencies dupDepPlan =
      kahnOrderOf dupDepPlan ++
        (dupDepPlan.filter (fun s => !(kahnOrderOf dupDepPlan).contains s.step_id)).map
          (fun s => s.step_id) :=
  claim_C4 dupDepPlan (by decide)

theorem claim_C8_amended_witness :
    List.Chain' (fun a b => codeTransition a b = true)
      (statusesOf (execute_plan toolsFailThenOk 0 [] oneStepPlan 2).2.trace 0) :=
  claim_C8_amended toolsFailThenOk 0 [] oneStepPlan 2 (by decide) 0

theorem claim_C9_amended_witness :
    ∃ fresh : List ExecRecord,
      (execute_plan toolsAlwaysOk 0 [] oneStepPlan 2).1.execution_history = [] ++ fresh ∧
      (∀ r ∈ fresh, ∃ s ∈ oneStepPlan, r.step_id = s.step_id ∧ r.tool = s.tool ∧
        (r.status = "completed" ∨ r.status = "failed")) ∧
      (∀ x : Nat, (histFor fresh x).length =
        attemptsOf (execute_plan toolsAlwaysOk 0 [] oneStepPlan 2).2.trace x) :=
  claim_C9_amended toolsAlwaysOk 0 [] oneStepPlan 2 (by decide)

end AgenticAI
